import Mathlib

/-!
Verification of the Docs-to-Site document conversion pipeline.

This file gives a shallow embedding, in Lean 4, of the core algorithms of the
repository: the filename/title sanitizers (`src/docs_to_site/utils.py` and
`src/docs_to_site/converter.py`), the PowerPoint image deduplication and
extraction pipeline (`src/docs_to_site/image_processor.py`), the Markdown
image-reference rewriter (`src/docs_to_site/document_converter.py`), the
navigation synthesizer (`src/docs_to_site/mkdocs_config.py`), and the pipeline
orchestrator (`src/docs_to_site/converter.py`).

Strings are modelled as lists of Unicode characters (`Str := List Char`),
matching Python strings (sequences of code points).  Python dictionaries are
modelled as insertion-ordered association lists with insert-or-overwrite
update, which is exactly the observable semantics of CPython dicts.
-/

namespace DocsToSite

abbrev Str := List Char

/-- The apostrophe character (code point 39). -/
def quoteCh : Char := Char.ofNat 39

/-- The backslash character (code point 92). -/
def backslashCh : Char := Char.ofNat 92

/-- The null character (code point 0). -/
def nulCh : Char := Char.ofNat 0

/-- ASCII decimal digit test, mirroring the regex class `\d` on ASCII input. -/
def isDigitCh (c : Char) : Bool := ('0' ≤ c ∧ c ≤ '9' : Bool)

/-! ## Python `pathlib.PurePosixPath` model

The sanitizers use `Path(filename).parts`, `.stem`, `.suffix` and
`Path(name).name`.  `PurePosixPath` splits on `/`, drops empty and single-dot
components, and keeps a root component for absolute paths.  `.suffix` is the
part of the final component from its last dot, provided that dot is neither
the first nor the last character of the component; `.stem` is the rest. -/

/-- Split a character list on the slash character, keeping empty pieces
(the raw `str.split` on a slash separator). -/
def splitSlash : Str → List Str
  | [] => [[]]
  | c :: rest =>
    let r := splitSlash rest
    if c = '/' then [] :: r
    else match r with
      | [] => [[c]]
      | w :: ws => (c :: w) :: ws

/-- The non-root components of `PurePosixPath(s)`: slash-separated pieces with
empty pieces and `.` pieces dropped. -/
def pySegs (s : Str) : List Str :=
  (splitSlash s).filter (fun t => ¬ t = [] ∧ ¬ t = ['.'])

/-- The root element of `PurePosixPath(s).parts`, when the path is absolute.
POSIX treats exactly two leading slashes as the special root. -/
def pyRoot (s : Str) : Option Str :=
  match s with
  | '/' :: '/' :: '/' :: _ => some ['/']
  | '/' :: '/' :: _ => some ['/', '/']
  | '/' :: _ => some ['/']
  | _ => none

/-- `PurePosixPath(s).parts`. -/
def pyParts (s : Str) : List Str :=
  (match pyRoot s with
   | some r => [r]
   | none => []) ++ pySegs s

/-- `PurePosixPath(s).name`: the final non-root component, or empty. -/
def pyName (s : Str) : Str := ((pySegs s).getLast?).getD []

/-- Split a path component into `(stem, suffix)` following `PurePosixPath`:
the suffix starts at the last dot if that dot is neither the first nor the
last character, and is empty otherwise. -/
def splitExt (name : Str) : Str × Str :=
  match name.reverse.takeWhile (fun c => ¬ c = '.'),
      name.reverse.dropWhile (fun c => ¬ c = '.') with
  | _, [] => (name, [])
  | after, _ :: rest2 =>
    if rest2 = [] then (name, [])
    else if after = [] then (name, [])
    else (rest2.reverse, '.' :: after.reverse)

/-- `PurePosixPath(s).stem`. -/
def pyStem (s : Str) : Str := (splitExt (pyName s)).1

/-- `PurePosixPath(s).suffix`. -/
def pySuffix (s : Str) : Str := (splitExt (pyName s)).2

/-! ## `python-slugify` model

`sanitize_filename` calls `slugify(stem, lowercase=False, separator="-",
regex_pattern=r"[^-a-zA-Z0-9.]+", replacements=[("_","-"),("/","-"),
("\\","-")])`.  For these arguments python-slugify performs, in order:
the user replacements; replacement of apostrophe runs by a dash; `unidecode`
transliteration followed by NFKD normalization and ASCII re-encoding with
`errors="ignore"`; HTML character-reference substitution; removal of
apostrophes; removal of commas between digits; substitution of every run of
characters outside `[-a-zA-Z0-9.]` by a dash; collapsing of dash runs; and
stripping of leading and trailing dashes.

Modelling notes, each exact on ASCII input (all concrete inputs evaluated in
this file are ASCII): the transliteration/NFKD/ASCII-encode chain is modelled
as dropping every non-ASCII character (`asciiClean`); the HTML
character-reference step, whose substitutions are in any case erased or
re-substituted by the later disallowed-character pass, is not modelled (no
theorem below depends on inputs containing an ampersand).  Substituting each
maximal disallowed run by one dash and then collapsing dash runs is
implemented as the pointwise substitution `mapDisallowed` followed by the
same collapsing pass, which yields identical results. -/

/-- Python single-character `str.replace`, which is a per-character map. -/
def chReplace (old new : Char) (s : Str) : Str :=
  s.map (fun c => if c = old then new else c)

/-- The three user replacements passed by `sanitize_filename`. -/
def slugUserRepl (s : Str) : Str :=
  chReplace backslashCh '-' (chReplace '/' '-' (chReplace '_' '-' s))

/-- Replace each maximal run of apostrophes by a single dash (the slugify
quote pre-process, regex `[']+` to the separator). -/
def quotePreAux : Bool → Str → Str
  | _, [] => []
  | prevQ, c :: rest =>
    if c = quoteCh then
      if prevQ then quotePreAux true rest
      else '-' :: quotePreAux true rest
    else c :: quotePreAux false rest

def quotePre (s : Str) : Str := quotePreAux false s

/-- Transliteration, NFKD and ASCII re-encoding modelled as keeping exactly
the ASCII characters. -/
def asciiClean (s : Str) : Str := s.filter (fun c => c.toNat < 128)

/-- The slugify quote post-process: remove remaining apostrophes. -/
def quotePost (s : Str) : Str := s.filter (fun c => ¬ c = quoteCh)

/-- Remove commas that sit between two digits (regex `(?<=\d),(?=\d)`);
the lookaround context is the original string. -/
def numbersCleanAux : Option Char → Str → Str
  | _, [] => []
  | prev, c :: rest =>
    if c = ',' ∧ (match prev with | some p => isDigitCh p | none => false) = true
        ∧ (match rest with | n :: _ => isDigitCh n | [] => false) = true then
      numbersCleanAux (some c) rest
    else c :: numbersCleanAux (some c) rest

def numbersClean (s : Str) : Str := numbersCleanAux none s

/-- The character class kept by the pattern `[^-a-zA-Z0-9.]+`. -/
def slugAllowed (c : Char) : Bool :=
  ('a' ≤ c ∧ c ≤ 'z') ∨ ('A' ≤ c ∧ c ≤ 'Z') ∨ isDigitCh c ∨ c = '-' ∨ c = '.'

/-- Substitute every disallowed character by a dash. -/
def mapDisallowed (s : Str) : Str :=
  s.map (fun c => if slugAllowed c then c else '-')

/-- Collapse runs of dashes to a single dash. -/
def dashCollapseAux : Bool → Str → Str
  | _, [] => []
  | prevD, c :: rest =>
    if c = '-' then
      if prevD then dashCollapseAux true rest
      else '-' :: dashCollapseAux true rest
    else c :: dashCollapseAux false rest

def dashCollapse (s : Str) : Str := dashCollapseAux false s

/-- Strip leading and trailing dashes (`str.strip("-")`). -/
def dashStrip (s : Str) : Str :=
  ((s.dropWhile (fun c => c = '-')).reverse.dropWhile (fun c => c = '-')).reverse

/-- The slugify call made by `sanitize_filename`. -/
def pySlugify (s : Str) : Str :=
  dashStrip (dashCollapse (mapDisallowed (numbersClean (quotePost
    (asciiClean (quotePre (slugUserRepl s)))))))

/-! ## `sanitize_filename` (utils.py lines 52-87, converter.py lines 44-77;
the two copies are textually identical). -/

/-- The stem that `sanitize_filename` slugifies: for a multi-part path, all
parts joined with dashes (note the final part keeps its extension there);
otherwise `Path(filename).stem`. -/
def sfStemChoice (filename : Str) : Str :=
  let parts := pyParts filename
  if 1 < parts.length then List.intercalate ['-'] parts
  else pyStem filename

/-- Model of `sanitize_filename`: slugify the stem, re-append the suffix
verbatim. -/
def sanitize_filename (filename : Str) : Str :=
  pySlugify (sfStemChoice filename) ++ pySuffix filename

/-! ## `sanitize_title` (utils.py lines 90-125, converter.py lines 80-112;
the two copies implement the same logic).

The replacement table maps the en dash and em dash to a hyphen, deletes the
trademark, registered and copyright signs, and turns square brackets into
parentheses.  Each pattern is a single character and no replacement output is
another pattern, so the sequential `str.replace` calls amount to one
per-character pass.  `str.isalnum` / `str.isspace` are modelled on their ASCII
fragment (every concrete input below is ASCII): ASCII letters and digits, and
the six ASCII whitespace characters. -/

def enDashCh : Char := Char.ofNat 0x2013
def emDashCh : Char := Char.ofNat 0x2014
def tmSignCh : Char := Char.ofNat 0x2122
def regSignCh : Char := Char.ofNat 0x00AE
def copySignCh : Char := Char.ofNat 0x00A9

/-- The fixed substitution table of `sanitize_title`. -/
def titleRepl (c : Char) : Option Char :=
  if c = enDashCh ∨ c = emDashCh then some '-'
  else if c = tmSignCh ∨ c = regSignCh ∨ c = copySignCh then none
  else if c = '[' then some '('
  else if c = ']' then some ')'
  else some c

/-- ASCII fragment of Python `str.isalnum`. -/
def pyIsAlnum (c : Char) : Bool :=
  ('a' ≤ c ∧ c ≤ 'z') ∨ ('A' ≤ c ∧ c ≤ 'Z') ∨ isDigitCh c

/-- ASCII fragment of Python `str.isspace`. -/
def pyIsSpace (c : Char) : Bool :=
  c = ' ' ∨ c = Char.ofNat 9 ∨ c = Char.ofNat 10 ∨ c = Char.ofNat 11
    ∨ c = Char.ofNat 12 ∨ c = Char.ofNat 13

/-- The character filter of `sanitize_title`: keep alphanumerics, whitespace
and the characters of the literal `"()-.,"`. -/
def titleKeep (c : Char) : Bool :=
  pyIsAlnum c ∨ pyIsSpace c ∨ c = '(' ∨ c = ')' ∨ c = '-' ∨ c = '.' ∨ c = ','

/-- Helper for `pyWordsOf`: returns the word currently being read at the head
of the string together with the completed words after it. -/
def pyWordsAux : Str → Str × List Str
  | [] => ([], [])
  | c :: rest =>
    let (w, ws) := pyWordsAux rest
    if pyIsSpace c then ([], if w = [] then ws else w :: ws)
    else (c :: w, ws)

/-- Python `str.split()` with no argument: split on whitespace runs,
discarding empty pieces. -/
def pyWordsOf (s : Str) : List Str :=
  let (w, ws) := pyWordsAux s
  if w = [] then ws else w :: ws

/-- Python `" ".join(words)`. -/
def joinSp : List Str → Str
  | [] => []
  | [w] => w
  | w :: ws => w ++ ' ' :: joinSp ws

/-- Model of `sanitize_title`: apply the substitution table, drop every
character the filter rejects, then `" ".join(s.split())` (collapse whitespace
runs to single spaces and trim the ends); the final `.strip()` is a no-op
after the join and is therefore folded into it. -/
def sanitize_title (title : Str) : Str :=
  joinSp (pyWordsOf ((title.filterMap titleRepl).filter titleKeep))

/-! ## Python dict model

Insertion-ordered association lists.  `dictSet` is `d[k] = v`: an existing
key keeps its position and gets the new value, a new key is appended.
`dictGet?` is `d[k]` / `k in d`. -/

def dictGet? {α : Type} [DecidableEq α] {β : Type} (d : List (α × β)) (k : α) :
    Option β :=
  match d.find? (fun e => e.1 = k) with
  | some e => some e.2
  | none => none

def dictSet {α : Type} [DecidableEq α] {β : Type} (d : List (α × β)) (k : α)
    (v : β) : List (α × β) :=
  if (d.find? (fun e => e.1 = k)).isSome then
    d.map (fun e => if e.1 = k then (k, v) else e)
  else d ++ [(k, v)]

/-- `d.update(d2)`: set every pair of `d2` in order. -/
def dictUpdate {α : Type} [DecidableEq α] {β : Type} (d d2 : List (α × β)) :
    List (α × β) :=
  d2.foldl (fun acc e => dictSet acc e.1 e.2) d

/-! ## Image pipeline (`image_processor.py`)

Shapes and presentations.  A presentation is the ordered list of its slides;
a slide is the ordered list of its shapes; a `Picture` shape carries its shape
name, the raw image bytes (`shape.image.blob`, modelled as a list of byte
values) and the lower-cased image extension (`shape.image.ext.lower()`).
`hash(image_bytes)` is modelled by the byte list itself: within one process
equal bytes hash equally, and the code treats hash equality as content
equality. -/

structure PicData where
  name : Str
  blob : List Nat
  ext : Str
deriving DecidableEq, Repr

inductive PShape where
  | pic (p : PicData)
  | other
deriving DecidableEq, Repr

abbrev Prs := List (List PShape)

/-- The nested `for slide_num, slide in enumerate(prs.slides, 1): for
shape_idx, shape in enumerate(slide.shapes, 1)` iteration, flattened into one
list of `(slide_num, shape_idx, shape)` triples with 1-based indices. -/
def enumShapes (prs : Prs) : List (Nat × Nat × PShape) :=
  (prs.enum.map (fun sl =>
    sl.2.enum.map (fun sh => (sl.1 + 1, sh.1 + 1, sh.2)))).flatten

/-- `prs.slides[i-1].shapes[j-1]` with the 1-based indices recorded by the
first pass. -/
def getShape (prs : Prs) (i j : Nat) : Option PShape :=
  match prs.get? (i - 1) with
  | some slide => slide.get? (j - 1)
  | none => none

/-- First-occurrence deduplication of a list: keep each element once, in the
order of first appearance. -/
def firstOccList {α : Type} [DecidableEq α] : List α → List α :=
  fun l => l.foldl (fun acc b => if b ∈ acc then acc else acc ++ [b]) []

/-- The blobs of all picture shapes, in document order. -/
def picBlobs (prs : Prs) : List (List Nat) :=
  (enumShapes prs).filterMap (fun t =>
    match t.2.2 with
    | .pic p => some p.blob
    | .other => none)

/-- State of the first pass of `find_unique_images`: the hashes in order of
first appearance (`ordered_hashes`; the `processed_hashes` set always holds
exactly the same elements and is represented by membership in this list) and
the `first_occurrence` dict mapping each hash to its `(slide_num, shape_idx)`
coordinates. -/
structure FirstPassState where
  ordered : List (List Nat)
  firstOcc : List (List Nat × Nat × Nat)
deriving Repr

/-- One step of the first pass of `find_unique_images`. -/
def firstPassStep (st : FirstPassState) (t : Nat × Nat × PShape) :
    FirstPassState :=
  match t.2.2 with
  | .pic p =>
    if p.blob ∈ st.ordered then st
    else { ordered := st.ordered ++ [p.blob],
           firstOcc := st.firstOcc ++ [(p.blob, t.1, t.2.1)] }
  | .other => st

/-- The first pass of `find_unique_images` (lines 215-235). -/
def firstPass (prs : Prs) : FirstPassState :=
  (enumShapes prs).foldl firstPassStep { ordered := [], firstOcc := [] }

/-- The stable name assigned to the k-th (1-based) unique image with original
extension `ext`: `image_k.png` for a WMF, `image_k.<ext>` otherwise. -/
def imageNameFor (k : Nat) (ext : Str) : Str :=
  ("image_").data ++ (toString k).data
    ++ (if ext = ("wmf").data then (".png").data else ['.'] ++ ext)

/-- The second pass of `find_unique_images` (lines 237-255): walk the ordered
hashes, re-fetch the first-occurrence shape and assign `image_k` names.  A
failed dict or index lookup is caught by the `except` clause and skips the
hash; the completeness lemmas below show this never happens. -/
def assignNames (prs : Prs) (st : FirstPassState) : List (List Nat × Str) :=
  st.ordered.enum.foldl (fun acc e =>
    match dictGet? st.firstOcc e.2 with
    | none => acc
    | some ij =>
      match getShape prs ij.1 ij.2 with
      | some (.pic p) => acc ++ [(e.2, imageNameFor (e.1 + 1) p.ext)]
      | _ => acc) []

/-- Model of `find_unique_images` (lines 197-260): returns
`(first_occurrence, blob_to_image, len(ordered_hashes))`. -/
def find_unique_images (prs : Prs) :
    List (List Nat × Nat × Nat) × List (List Nat × Str) × Nat :=
  let st := firstPass prs
  (st.firstOcc, assignNames prs st, st.ordered.length)

/-- Modelled from the spec: `normalize_image_name` is imported from
`utils.py` but absent from the source snapshot (only its callers and tests
are present).  Spec section 4.2 describes it as the "normalized form
(lowercase, spaces/underscores/dots stripped) of the raw name", applied to
the filename portion; the in-repo tests pin the same behavior
(`normalize_image_name("test/path/image.gif") == "image"`).  Model: take the
stem of the final path component, drop whitespace, underscores and dots,
lowercase. -/
def normalize_image_name (name : Str) : Str :=
  ((pyStem name).filter
    (fun c => ¬ (pyIsSpace c ∨ c = '_' ∨ c = '.'))).map Char.toLower

/-- Model of `create_image_mappings` (lines 164-194).  In python-pptx a
`Picture` has a `name` attribute but no `image_filename` attribute, so
`possible_names` is exactly `[shape.name]`.  The dict collects, in order: the
full name, its final path component, its normalized form, and the normalized
form and bare stem with each of the four listed extensions appended. -/
def create_image_mappings (shape : PicData) (image_name : Str) :
    List (Str × Str) :=
  let exts : List Str := [(".jpg").data, (".jpeg").data, (".png").data,
    (".gif").data]
  let base : List (Str × Str) :=
    [(shape.name, image_name), (pyName shape.name, image_name),
     (normalize_image_name shape.name, image_name)]
  let extPairs : List (Str × Str) :=
    exts.foldl (fun acc e =>
      acc ++ [(normalize_image_name shape.name ++ e, image_name),
              (pyStem shape.name ++ e, image_name)]) []
  dictUpdate [] (base ++ extPairs)

/-- `Path(...).with_suffix(ext)`: replace the suffix of the final component
(or append one).  Only used here on plain file names. -/
def withSuffix (name : Str) (newExt : Str) : Str :=
  (splitExt name).1 ++ newExt

/-- Result of `convert_wmf_to_png`, an external-collaborator call (it shells
out to ImageMagick): either a vector `.svg` or a raster `.png` output file,
or failure.  The concrete outcome depends on the environment, so the
extraction model takes it as an oracle indexed by the image bytes. -/
inductive WmfResult where
  | svg
  | png
  | fail
deriving DecidableEq, Repr

/-- State of the extraction pass of `extract_pptx_images`: the set of
processed hashes (kept as a first-occurrence list), the files written into
the document image folder (name and content, in write order), and the
accumulated `image_map`. -/
structure ExtractState where
  processed : List (List Nat)
  writes : List (Str × List Nat)
  imageMap : List (Str × Str)
deriving Repr

/-- One shape step of the second pass of `extract_pptx_images` (lines
293-362).  `magick` is the `check_imagemagick()` availability flag (modelled
from the spec: the probe itself is absent from the snapshot, spec section 4.2
treats conversion availability as an environment condition); `conv` is the
`convert_wmf_to_png` outcome oracle.  A missing `blob_to_image` key would
raise and skip the shape; the WMF branches write the converted file or fall
back to saving the original bytes under the `.wmf` suffix. -/
def extractStep (magick : Bool) (conv : List Nat → WmfResult)
    (b2i : List (List Nat × Str)) (st : ExtractState) (sh : PShape) :
    ExtractState :=
  match sh with
  | .other => st
  | .pic p =>
    match dictGet? b2i p.blob with
    | none => st
    | some image_name =>
      let st1 :=
        if p.blob ∈ st.processed then st
        else
          let fileName :=
            if p.ext = ("wmf").data then
              if magick then
                match conv p.blob with
                | .svg => withSuffix image_name ((".svg").data)
                | .png => withSuffix image_name ((".png").data)
                | .fail => withSuffix image_name ((".wmf").data)
              else withSuffix image_name ((".wmf").data)
            else image_name
          { st with processed := st.processed ++ [p.blob],
                    writes := st.writes ++ [(fileName, p.blob)] }
      { st1 with
        imageMap := dictUpdate st1.imageMap
          (create_image_mappings p image_name) }

/-- Model of `extract_pptx_images` (lines 263-370): run
`find_unique_images`, then walk every shape again, writing each unique image
once and registering the name mappings of every picture shape. -/
def extract_pptx_images (magick : Bool) (conv : List Nat → WmfResult)
    (prs : Prs) : ExtractState :=
  let b2i := (find_unique_images prs).2.1
  (enumShapes prs).foldl
    (fun st t => extractStep magick conv b2i st t.2.2)
    { processed := [], writes := [], imageMap := [] }

/-! ## Markdown image-reference rewriter (`document_converter.py`,
`format_markdown`, lines 54-148)

The rewriter scans the Markdown text for image references `![alt](ref)` and
rewrites each resolved reference to
`images/<sanitize_filename(document.stem)>/<new_path>`.  The text is
modelled as its parse into segments: plain text runs and image references.
The regex passes of the source act on the flat string; on documents whose
references are the ones produced by this parse (well-formed, with the
reference text not recurring elsewhere) their action is exactly the
per-segment action modelled here.  The cited block applies, in order: the
exact-key substitution loop, the variations loop with normalized and
base-name fallbacks (diagnostic on failure), the absolute `/images/` prefix
fixup, and the duplicated `images/_/images/_/` path cleanup. -/

inductive MdSeg where
  | text (s : Str)
  | img (alt r : Str)
deriving DecidableEq, Repr

/-- The replacement target `images/{sanitize_filename(document.stem)}/{new}`. -/
def imgTarget (doc : Str) (newPath : Str) : Str :=
  ("images/").data ++ sanitize_filename (pyStem doc) ++ ['/'] ++ newPath

/-- The exact-match loop (lines 60-68): for each `(old, new)` pair of the
image map in order, a reference whose target currently equals `old` is
rewritten; later pairs see the already-rewritten target. -/
def exactPass (imap : List (Str × Str)) (doc : Str) (r : Str) : Str :=
  imap.foldl (fun cur e => if cur = e.1 then imgTarget doc e.2 else cur) r

/-- `var.lower().replace(" ", "").replace("_", "").replace(".", "")`. -/
def normVar (v : Str) : Str :=
  (v.map Char.toLower).filter (fun c => ¬ (c = ' ' ∨ c = '_' ∨ c = '.'))

/-- `base.lower().replace(" ", "").replace("_", "")` (dots are kept here). -/
def normBaseOf (base : Str) : Str :=
  (base.map Char.toLower).filter (fun c => ¬ (c = ' ' ∨ c = '_'))

/-- The inner base-name loop (lines 114-124): the first map entry whose
normalized stem equals the normalized stem of the reference. -/
def baseMatch (imap : List (Str × Str)) (nb : Str) : Option Str :=
  (imap.find? (fun e => normBaseOf (pyStem e.1) = nb)).map (fun e => e.2)

/-- The candidate list of lines 77-85: the reference itself, its filename
part, its stem, and the stem with each common raster extension. -/
def variationsOf (r : Str) : List Str :=
  let base := pyStem r
  [r, pyName r, base, base ++ (".jpg").data, base ++ (".jpeg").data,
   base ++ (".png").data, base ++ (".gif").data]

/-- The variations loop (lines 87-127): for each candidate, try the exact
key, then the normalized key, then the base-name scan; first hit wins. -/
def varLoop (imap : List (Str × Str)) (nb : Str) : List Str → Option Str
  | [] => none
  | v :: vs =>
    match dictGet? imap v with
    | some np => some np
    | none =>
      match dictGet? imap (normVar v) with
      | some np => some np
      | none =>
        match baseMatch imap nb with
        | some mp => some mp
        | none => varLoop imap nb vs

/-- All matching strategies of the variations loop applied to a reference. -/
def refStrategies (imap : List (Str × Str)) (r : Str) : Option Str :=
  varLoop imap (normBaseOf (pyStem r)) (variationsOf r)

/-- Drop a literal leading piece, or fail. -/
def dropLit (pre s : Str) : Option Str :=
  if pre.isPrefixOf s then some (s.drop pre.length) else none

/-- Match the regex `images/[^/]+/images/[^/]+/` at the head of the string,
returning the two path components and the remainder after the match. -/
def dupMatch? (s : Str) : Option (Str × Str × Str) :=
  match dropLit (("images/").data) s with
  | none => none
  | some s1 =>
    match s1.takeWhile (fun c => ¬ c = '/'), s1.dropWhile (fun c => ¬ c = '/') with
    | [], _ => none
    | a, '/' :: s3 =>
      match dropLit (("images/").data) s3 with
      | none => none
      | some s4 =>
        match s4.takeWhile (fun c => ¬ c = '/'),
            s4.dropWhile (fun c => ¬ c = '/') with
        | [], _ => none
        | b, '/' :: rest => some (a, b, rest)
        | _, _ => none
    | _, _ => none

theorem dropLit_length (pre s t : Str) (h : dropLit pre s = some t) :
    t.length ≤ s.length := by
  unfold dropLit at h
  split at h
  · cases h
    simp
  · cases h

theorem cons_drop_length (l t : Str) (c : Char) (k : Nat)
    (h : l.drop k = c :: t) : t.length < l.length := by
  have h2 := congrArg List.length h
  simp only [List.length_drop, List.length_cons] at h2
  omega

theorem cons_dropWhile_length (l t : Str) (c : Char)
    (p : Char → Bool) (h : l.dropWhile p = c :: t) : t.length < l.length := by
  have h2 : (l.dropWhile p).length ≤ l.length := by
    conv_rhs => rw [← List.takeWhile_append_dropWhile (p := p) (l := l)]
    rw [List.length_append]
    omega
  rw [h] at h2
  simp only [List.length_cons] at h2
  omega

theorem dupMatch?_rest_lt (s a b rest : Str)
    (h : dupMatch? s = some (a, b, rest)) : rest.length < s.length := by
  unfold dupMatch? at h
  split at h
  · cases h
  · rename_i s1 h1
    split at h
    · cases h
    · rename_i a2 x2 s3 hd hne
      split at h
      · cases h
      · rename_i s4 h2
        split at h
        · cases h
        · rename_i b2 x3 rest2 hbd hbne
          rw [Option.some_inj] at h
          cases h
          have l5 : rest.length < s4.length := cons_dropWhile_length _ _ _ _ hbd
          have l4 : s4.length ≤ s3.length := dropLit_length _ _ _ h2
          have l3 : s3.length < s1.length := cons_dropWhile_length _ _ _ _ hd
          have l1 : s1.length ≤ s.length := dropLit_length _ _ _ h1
          omega
        · cases h
    · cases h

/-- Recursion core of the duplicate-path substitution: scan left to right,
replacing each leftmost `images/[^/]+/images/[^/]+/` match and continuing
after it.  The fuel argument bounds the recursion depth: every step strictly
shortens the string (`dupMatch?_rest_lt` for the match case), so a fuel of
one more than the string length is never exhausted. -/
def dupFixGo : Nat → Str → Str
  | 0, s => s
  | fuel + 1, s =>
    match dupMatch? s with
    | some (a, b, rest) =>
      a ++ ('/' :: ("images/").data) ++ b ++ ['/'] ++ dupFixGo fuel rest
    | none =>
      match s with
      | [] => []
      | c :: t => c :: dupFixGo fuel t

/-- Global substitution of `images/[^/]+/images/[^/]+/` by the match minus
its first `images/<seg>/` piece (lines 140-144): leftmost matches,
continuing after each replacement. -/
def dupFix (s : Str) : Str := dupFixGo (s.length + 1) s

/-- The absolute-path fixup (lines 133-137): a reference target beginning
with `/images/` loses its leading slash. -/
def absFix (r : Str) : Str :=
  if (("/images/").data).isPrefixOf r then r.drop 1 else r

/-- Per-reference action of the rewriter: the exact pass, then the
variations loop, then both fixups; an unresolved reference is returned
with the diagnostic name that line 130 logs. -/
def rewriteRef (imap : List (Str × Str)) (doc : Str) (alt r : Str) :
    MdSeg × List Str :=
  let r1 := exactPass imap doc r
  match refStrategies imap r1 with
  | some np => (.img (dupFix alt) (dupFix (absFix (imgTarget doc np))), [])
  | none => (.img (dupFix alt) (dupFix (absFix r1)), [r1])

/-- Model of the image-reference block of `format_markdown` (lines 54-148).
When the image map is empty the whole matching block is skipped (`if
image_map:`) and only the two fixups run. -/
def format_markdown_refs (imap : List (Str × Str)) (doc : Str)
    (segs : List MdSeg) : List MdSeg × List Str :=
  if imap = [] then
    (segs.map (fun sg =>
      match sg with
      | .text s => .text (dupFix s)
      | .img alt r => .img (dupFix alt) (dupFix (absFix r))), [])
  else
    segs.foldl (fun acc sg =>
      match sg with
      | .text s => (acc.1 ++ [.text (dupFix s)], acc.2)
      | .img alt r =>
        let (sg2, w) := rewriteRef imap doc alt r
        (acc.1 ++ [sg2], acc.2 ++ w)) ([], [])

/-! ## Navigation synthesizer (`mkdocs_config.py`,
`MkDocsConfig._build_nav_structure`, lines 78-136)

The input is the `converted_files` dict mapping output paths to titles,
modelled as an insertion-ordered list of `(path, title)` pairs.  A title is
split at the first `" - "`; a nonempty part before it keys a group,
otherwise the sanitized full title becomes a top-level entry.  The nested
dict is then emitted sorted by key. -/

/-- Python `title.split(" - ", 1)` when the separator occurs: the text
before the first occurrence and the text after it. -/
def splitDash : Str → Option (Str × Str)
  | [] => none
  | c :: rest =>
    if ((" - ").data).isPrefixOf (c :: rest) then some ([], (c :: rest).drop 3)
    else
      match splitDash rest with
      | some pr => some (c :: pr.1, pr.2)
      | none => none

/-- `str(file_path).replace(chr(92), "/")`. -/
def pathStr (fp : Str) : Str := chReplace backslashCh '/' fp

/-- First loop of `_build_nav_structure` (lines 92-105): distribute entries
into the top-level dict and the `prefix_groups` dict. -/
def navPass1 (files : List (Str × Str)) :
    List (Str × Str) × List (Str × List (Str × Str)) :=
  files.foldl (fun st e =>
    match splitDash e.2 with
    | some pr =>
      if pr.1 = [] then (dictSet st.1 (sanitize_title e.2) (pathStr e.1), st.2)
      else
        (st.1,
         match dictGet? st.2 pr.1 with
         | some l => dictSet st.2 pr.1 (l ++ [e])
         | none => st.2 ++ [(pr.1, [e])])
    | none => (dictSet st.1 (sanitize_title e.2) (pathStr e.1), st.2))
    ([], [])

inductive NavVal where
  | leaf (p : Str)
  | group (d : List (Str × Str))
deriving DecidableEq, Repr

/-- Second loop of `_build_nav_structure` (lines 107-119): build each group
dict and add it under the sanitized group key. -/
def navStructure (files : List (Str × Str)) : List (Str × NavVal) :=
  let (top, groups) := navPass1 files
  groups.foldl (fun ns g =>
    let pnav := g.2.foldl (fun d e =>
      let leafT := match splitDash e.2 with
        | some pr => pr.2
        | none => e.2
      dictSet d (sanitize_title leafT) (pathStr e.1)) []
    dictSet ns (sanitize_title g.1) (NavVal.group pnav))
    (top.map (fun e => (e.1, NavVal.leaf e.2)))

/-- Code-point lexicographic order on strings (Python `<` on `str`). -/
def strLtB : Str → Str → Bool
  | [], [] => false
  | [], _ :: _ => true
  | _ :: _, [] => false
  | a :: as2, b :: bs => if a = b then strLtB as2 bs else decide (a < b)

/-- Stable insertion of a keyed pair into a key-sorted list. -/
def ordIns {β : Type} (x : Str × β) : List (Str × β) → List (Str × β)
  | [] => [x]
  | y :: ys => if strLtB y.1 x.1 then y :: ordIns x ys else x :: y :: ys

/-- `sorted(d.items())` for a dict with distinct keys: comparison never
reaches the values, so key order decides. -/
def sortPairs {β : Type} (l : List (Str × β)) : List (Str × β) :=
  l.foldr ordIns []

inductive NavItem where
  | leaf (title p : Str)
  | group (title : Str) (children : List (Str × Str))
deriving DecidableEq, Repr

/-- The `dict_to_nav` emitter (lines 122-134): sort by key; nested dicts are
emitted recursively (their values are all strings, one level deep here) and
empty sections are dropped. -/
def dict_to_nav (d : List (Str × NavVal)) : List NavItem :=
  (sortPairs d).filterMap (fun e =>
    match e.2 with
    | .leaf p => some (NavItem.leaf e.1 p)
    | .group g =>
      match sortPairs g with
      | [] => none
      | sub => some (NavItem.group e.1 sub))

/-- Model of `MkDocsConfig._build_nav_structure`. -/
def build_nav_structure (files : List (Str × Str)) : List NavItem :=
  dict_to_nav (navStructure files)

/-- The leaf `(title, path)` pairs of the produced navigation, in order. -/
def navLeaves (nav : List NavItem) : List (Str × Str) :=
  nav.foldl (fun acc it =>
    match it with
    | .leaf t p => acc ++ [(t, p)]
    | .group _ ch => acc ++ ch) []

/-! ## Pipeline orchestrator (`converter.py`, `DocumentConverter.convert`
lines 545-591 and `generate_mkdocs_config` lines 489-543)

The run is modelled by the sequence of its observable actions.  Document
discovery and the per-document conversion outcome (the external engine, the
filesystem) are inputs: `documents` is the `get_documents()` result (path
and accessibility flag) and `outcome` gives, per accessible document, either
a successful conversion (with its recorded output path and title) or the
exception class it raises. -/

inductive DocOutcome where
  | ok (relOut title : Str)
  | permOrOsError
  | conversionError
deriving DecidableEq, Repr

inductive RunEvent where
  | madeDocsDir
  | wroteMarkdown (doc : Str)
  | recordedInaccessible (doc : Str)
  | recordedFailure (doc : Str)
  | builtNav
  | wroteConfig
deriving DecidableEq, Repr

inductive RunError where
  | noDocumentsFound
deriving DecidableEq, Repr

/-- One iteration of the conversion loop (lines 560-571): inaccessible
documents are recorded and skipped; `PermissionError`/`OSError` add to the
inaccessible list; any other exception is logged and recorded; success
writes the Markdown file and records the `(path, title)` entry. -/
def convertLoopStep (outcome : Str → DocOutcome)
    (st : List RunEvent × List (Str × Str)) (d : Str × Bool) :
    List RunEvent × List (Str × Str) :=
  if d.2 = false then (st.1 ++ [.recordedInaccessible d.1], st.2)
  else
    match outcome d.1 with
    | .ok rel title => (st.1 ++ [.wroteMarkdown d.1],
        dictSet st.2 rel title)
    | .permOrOsError => (st.1 ++ [.recordedInaccessible d.1], st.2)
    | .conversionError => (st.1 ++ [.recordedFailure d.1], st.2)

/-- Model of `generate_mkdocs_config` (lines 489-543): navigation is built
only when at least one file was converted; the configuration file is always
written. -/
def generateConfigEvents (converted : List (Str × Str)) : List RunEvent :=
  (if converted = [] then [] else [.builtNav]) ++ [.wroteConfig]

/-- Model of `DocumentConverter.convert` (lines 545-591): create the docs
directory, raise `ValueError` when discovery found nothing, otherwise run
the loop over every document and then emit the configuration once. -/
def convertRun (documents : List (Str × Bool)) (outcome : Str → DocOutcome) :
    List RunEvent × Option RunError :=
  let ev0 : List RunEvent := [.madeDocsDir]
  if documents = [] then (ev0, some .noDocumentsFound)
  else
    let (evs, conv) := documents.foldl (convertLoopStep outcome) (ev0, [])
    (evs ++ generateConfigEvents conv, none)

/-! ## Orchestrator lemmas and claims C7, C8 -/

/-- The single event that the conversion loop records for one document. -/
def recordEventOf (outcome : Str → DocOutcome) (d : Str × Bool) : RunEvent :=
  if d.2 = false then .recordedInaccessible d.1
  else
    match outcome d.1 with
    | .ok _ _ => .wroteMarkdown d.1
    | .permOrOsError => .recordedInaccessible d.1
    | .conversionError => .recordedFailure d.1

/-- Whether a document converts successfully. -/
def docConverts (outcome : Str → DocOutcome) (d : Str × Bool) : Bool :=
  d.2 && (match outcome d.1 with
    | .ok _ _ => true
    | _ => false)

theorem convertLoopStep_fst (outcome : Str → DocOutcome)
    (st : List RunEvent × List (Str × Str)) (d : Str × Bool) :
    (convertLoopStep outcome st d).1 = st.1 ++ [recordEventOf outcome d] := by
  rcases d with ⟨p, acc⟩
  unfold convertLoopStep recordEventOf
  cases acc with
  | false => simp
  | true =>
    simp only [Bool.true_eq_false, if_false]
    cases outcome p <;> simp

theorem dictSet_ne_nil {α : Type} [DecidableEq α] {β : Type}
    (d : List (α × β)) (k : α) (v : β) : ¬ dictSet d k v = [] := by
  unfold dictSet
  split
  · rename_i hfind
    intro h
    rcases d with _ | ⟨e, es⟩
    · simp [List.find?] at hfind
    · simp at h
  · simp

theorem convertLoopStep_snd_ne_nil (outcome : Str → DocOutcome)
    (st : List RunEvent × List (Str × Str)) (d : Str × Bool) :
    (convertLoopStep outcome st d).2 = []
      ↔ (st.2 = [] ∧ docConverts outcome d = false) := by
  rcases d with ⟨p, acc⟩
  unfold convertLoopStep docConverts
  cases acc with
  | false => simp
  | true =>
    cases houtcome : outcome p with
    | ok rel title => simp [houtcome, dictSet_ne_nil]
    | permOrOsError => simp [houtcome]
    | conversionError => simp [houtcome]

theorem convertLoop_events (outcome : Str → DocOutcome)
    (documents : List (Str × Bool)) (ev0 : List RunEvent)
    (c0 : List (Str × Str)) :
    (documents.foldl (convertLoopStep outcome) (ev0, c0)).1
      = ev0 ++ documents.map (recordEventOf outcome) := by
  induction documents generalizing ev0 c0 with
  | nil => simp
  | cons d ds ih =>
    simp only [List.foldl_cons, List.map_cons]
    have h1 := convertLoopStep_fst outcome (ev0, c0) d
    rcases hstep : convertLoopStep outcome (ev0, c0) d with ⟨ev1, c1⟩
    rw [hstep] at h1
    dsimp only at h1
    rw [ih ev1 c1, h1]
    simp

theorem convertLoop_converted (outcome : Str → DocOutcome)
    (documents : List (Str × Bool)) (ev0 : List RunEvent)
    (c0 : List (Str × Str)) :
    ((documents.foldl (convertLoopStep outcome) (ev0, c0)).2 = []
      ↔ (c0 = [] ∧ ∀ d ∈ documents, docConverts outcome d = false)) := by
  induction documents generalizing ev0 c0 with
  | nil => simp
  | cons d ds ih =>
    simp only [List.foldl_cons]
    rcases hstep : convertLoopStep outcome (ev0, c0) d with ⟨ev1, c1⟩
    have h2 := convertLoopStep_snd_ne_nil outcome (ev0, c0) d
    rw [hstep] at h2
    simp only at h2
    rw [ih ev1 c1]
    simp only [List.mem_cons]
    constructor
    · rintro ⟨hc1, hall⟩
      obtain ⟨hc0, hd⟩ := h2.mp hc1
      exact ⟨hc0, fun x hx => by
        rcases hx with rfl | hx
        · exact hd
        · exact hall x hx⟩
    · rintro ⟨hc0, hall⟩
      refine ⟨h2.mpr ⟨hc0, hall d (Or.inl rfl)⟩, fun x hx => hall x (Or.inr hx)⟩

/-- Claim C7 counterexample input: one accessible document whose conversion
fails. -/
def runAllFailed : List RunEvent × Option RunError :=
  convertRun [(("a.pptx").data, true)] (fun _ => DocOutcome.conversionError)

/-- C7 counterexample: with one discovered document that fails to convert,
the run completes and writes the configuration, but navigation synthesis is
invoked zero times, not once — `generate_mkdocs_config` skips
`_build_nav_structure` when `converted_files` is empty, contradicting the
claim that navigation synthesis is invoked exactly once even if every
document failed. -/
theorem claim_C7_counterexample :
    runAllFailed.2 = none
      ∧ runAllFailed.1.count RunEvent.wroteConfig = 1
      ∧ runAllFailed.1.count RunEvent.builtNav = 0 := by
  decide

/-- Claim C7 (amended): whenever at least one document is discovered, the
run completes with no fatal error; each document contributes exactly one
recorded outcome event, in discovery order (exceptions are caught and the
loop continues); the site configuration is written exactly once even if
every document failed; and navigation synthesis is invoked exactly once when
at least one document converted successfully, and zero times otherwise. -/
theorem claim_C7 (documents : List (Str × Bool)) (outcome : Str → DocOutcome)
    (hne : ¬ documents = []) :
    (convertRun documents outcome).2 = none
      ∧ (convertRun documents outcome).1
          = [RunEvent.madeDocsDir] ++ documents.map (recordEventOf outcome)
            ++ (if documents.any (docConverts outcome) then [RunEvent.builtNav]
                else [])
            ++ [RunEvent.wroteConfig] := by
  unfold convertRun
  rw [if_neg hne]
  rcases hfold : documents.foldl (convertLoopStep outcome)
      ([RunEvent.madeDocsDir], []) with ⟨evs, conv⟩
  have hev := convertLoop_events outcome documents [RunEvent.madeDocsDir] []
  have hcv := convertLoop_converted outcome documents [RunEvent.madeDocsDir] []
  rw [hfold] at hev hcv
  dsimp only at hev hcv ⊢
  subst hev
  refine ⟨rfl, ?_⟩
  unfold generateConfigEvents
  by_cases hany : documents.any (docConverts outcome)
  · have : ¬ conv = [] := by
      rw [hcv]
      rintro ⟨-, hall⟩
      rw [List.any_eq_true] at hany
      obtain ⟨d, hd, hdc⟩ := hany
      rw [hall d hd] at hdc
      cases hdc
    rw [if_neg this, if_pos hany]
    simp
  · have : conv = [] := by
      rw [hcv]
      refine ⟨rfl, fun d hd => ?_⟩
      by_contra hc
      exact hany (List.any_eq_true.mpr ⟨d, hd, by
        cases h2 : docConverts outcome d
        · exact absurd h2 hc
        · rfl⟩)
    rw [if_pos this, if_neg hany]
    simp

/-- C7 witness: a two-document run, one success and one failure. -/
theorem claim_C7_witness :
    ¬ ([(("a.docx").data, true), (("b.docx").data, true)]
        : List (Str × Bool)) = []
      ∧ (convertRun [(("a.docx").data, true), (("b.docx").data, true)]
          (fun p => if p = ("a.docx").data
            then DocOutcome.ok (("a.md").data) (("A").data)
            else DocOutcome.conversionError)).2 = none := by
  refine ⟨by decide, ?_⟩
  exact (claim_C7 _ _ (by decide)).1

/-- Claim C8: if document discovery finds zero candidate documents, the run
raises the `No supported documents found` `ValueError` and stops before any
output is produced: the only prior action is the idempotent creation of the
docs directory, so no Markdown file, no image file and no configuration file
is written. -/
theorem claim_C8 (documents : List (Str × Bool)) (outcome : Str → DocOutcome)
    (hempty : documents = []) :
    (convertRun documents outcome).2 = some RunError.noDocumentsFound
      ∧ (convertRun documents outcome).1 = [RunEvent.madeDocsDir] := by
  subst hempty
  exact ⟨rfl, rfl⟩

/-- C8 witness: the empty discovery result. -/
theorem claim_C8_witness :
    (convertRun [] (fun _ => DocOutcome.conversionError)).2
        = some RunError.noDocumentsFound
      ∧ (convertRun [] (fun _ => DocOutcome.conversionError)).1
        = [RunEvent.madeDocsDir] :=
  claim_C8 [] _ rfl

/-! ## Claims C5 and C6: navigation synthesis -/

/-- The concrete title collection of claim C6. -/
def filesC6 : List (Str × Str) :=
  [(("doc1.md").data, ("A - X").data), (("doc2.md").data, ("A - Y").data),
   (("doc3.md").data, ("B").data)]

/-- Claim C6: on the collection mapping doc1 to `A - X`, doc2 to `A - Y`
and doc3 to `B`, the synthesizer produces the group `A` with exactly the
leaves `X` and `Y`, and places `B` as a top-level entry (the consistent
policy of `MkDocsConfig._build_nav_structure`: a title without the
separator becomes a top-level leaf under its sanitized title). -/
theorem claim_C6 :
    build_nav_structure filesC6
      = [NavItem.group (("A").data)
          [((("X").data), ("doc1.md").data), ((("Y").data), ("doc2.md").data)],
         NavItem.leaf (("B").data) (("doc3.md").data)] := by
  decide

/-- Claim C5 counterexample input: two distinct paths with the same title. -/
def filesC5cex : List (Str × Str) :=
  [(("doc1.md").data, ("T").data), (("doc2.md").data, ("T").data)]

/-- C5 counterexample: with two entries whose titles sanitize to the same
top-level key, the second dict assignment overwrites the first and `doc1.md`
appears zero times in the produced tree, so not every entry of the input
collection appears exactly once as a leaf. -/
theorem claim_C5_counterexample :
    ((("doc1.md").data, ("T").data)) ∈ filesC5cex
      ∧ navLeaves (build_nav_structure filesC5cex)
          = [((("T").data), ("doc2.md").data)] := by
  decide

/-! ## Generic list and dict lemmas -/

theorem foldl_hold {σ α : Type} (step : σ → α → σ) (P : σ → Prop)
    (hstep : ∀ s a, P s → P (step s a)) :
    ∀ (ts : List α) (s : σ), P s → P (ts.foldl step s) := by
  intro ts
  induction ts with
  | nil => intro s hs; exact hs
  | cons t ts ih => intro s hs; exact ih _ (hstep s t hs)

theorem dictSet_mem {α : Type} [DecidableEq α] {β : Type}
    (d : List (α × β)) (k : α) (v : β) :
    ∀ e ∈ dictSet d k v, e ∈ d ∨ e = (k, v) := by
  intro e he
  unfold dictSet at he
  split at he
  · rw [List.mem_map] at he
    obtain ⟨x, hx, hxe⟩ := he
    by_cases hk : x.1 = k
    · right
      rw [if_pos hk] at hxe
      exact hxe.symm
    · left
      rw [if_neg hk] at hxe
      exact hxe ▸ hx
  · rw [List.mem_append] at he
    rcases he with he | he
    · exact Or.inl he
    · exact Or.inr (by simpa using he)

theorem dictUpdate_mem {α : Type} [DecidableEq α] {β : Type}
    (d l : List (α × β)) : ∀ e ∈ dictUpdate d l, e ∈ d ∨ e ∈ l := by
  unfold dictUpdate
  have main : ∀ (l2 : List (α × β)) (d0 : List (α × β)),
      (∀ e ∈ d0, e ∈ d ∨ e ∈ l) → (∀ e ∈ l2, e ∈ l) →
      ∀ e ∈ l2.foldl (fun acc p => dictSet acc p.1 p.2) d0, e ∈ d ∨ e ∈ l := by
    intro l2
    induction l2 with
    | nil => intro d0 h0 _ e he; exact h0 e he
    | cons p ps ih =>
      intro d0 h0 hsub e he
      refine ih _ ?_ (fun x hx => hsub x (List.mem_cons_of_mem p hx)) e he
      intro x hx
      rcases dictSet_mem d0 p.1 p.2 x hx with hx2 | hx2
      · exact h0 x hx2
      · exact Or.inr (hx2 ▸ hsub p (List.mem_cons_self p ps))
  exact main l d (fun e he => Or.inl he) (fun e he => he)

theorem dictGet?_of_map_nodup {α : Type} [DecidableEq α] {β : Type}
    (l : List (α × β)) (hnd : (l.map Prod.fst).Nodup) :
    ∀ e ∈ l, dictGet? l e.1 = some e.2 := by
  induction l with
  | nil => intro e he; cases he
  | cons x xs ih =>
    intro e he
    rw [List.map_cons, List.nodup_cons] at hnd
    rw [List.mem_cons] at he
    rcases he with rfl | he
    · unfold dictGet?
      rw [List.find?_cons_of_pos _ (by simp)]
    · unfold dictGet?
      have hne : ¬ x.1 = e.1 := by
        intro hcontra
        exact hnd.1 (hcontra ▸ List.mem_map_of_mem Prod.fst he)
      rw [List.find?_cons_of_neg _ (by simp [hne])]
      exact ih hnd.2 e he

/-! ## First-occurrence list lemmas -/

theorem firstOccList_append_singleton {α : Type} [DecidableEq α]
    (l : List α) (b : α) :
    firstOccList (l ++ [b]) =
      (if b ∈ firstOccList l then firstOccList l
       else firstOccList l ++ [b]) := by
  unfold firstOccList
  rw [List.foldl_append]
  rfl

theorem firstOccList_mem {α : Type} [DecidableEq α] (l : List α) (b : α) :
    b ∈ firstOccList l ↔ b ∈ l := by
  induction l using List.reverseRecOn with
  | nil => simp [firstOccList]
  | append_singleton xs x ih =>
    rw [firstOccList_append_singleton]
    split
    · rename_i hmem
      simp only [List.mem_append, List.mem_singleton]
      constructor
      · intro h; exact Or.inl (ih.mp h)
      · rintro (h | rfl)
        · exact ih.mpr h
        · exact hmem
    · simp only [List.mem_append, List.mem_singleton, ih]

theorem firstOccList_nodup {α : Type} [DecidableEq α] (l : List α) :
    (firstOccList l).Nodup := by
  induction l using List.reverseRecOn with
  | nil => simp [firstOccList]
  | append_singleton xs x ih =>
    rw [firstOccList_append_singleton]
    split
    · exact ih
    · rename_i hmem
      refine List.Nodup.append ih (List.nodup_singleton x) ?_
      intro a ha hax
      rw [List.mem_singleton] at hax
      subst hax
      exact hmem ha

theorem firstOccList_toFinset {α : Type} [DecidableEq α] (l : List α) :
    (firstOccList l).toFinset = l.toFinset := by
  ext a
  simp [List.mem_toFinset, firstOccList_mem]

theorem firstOccList_length_eq_dedup {α : Type} [DecidableEq α]
    (l : List α) : (firstOccList l).length = l.dedup.length := by
  have h1 : (firstOccList l).toFinset.card = (firstOccList l).length :=
    List.toFinset_card_of_nodup (firstOccList_nodup l)
  rw [← h1, firstOccList_toFinset, List.card_toFinset]

/-! ## First pass invariants (claims C1-C3) -/

/-- The indexed picture data of one enumerated shape. -/
def picIdxOf (t : Nat × Nat × PShape) : Option ((Nat × Nat) × PicData) :=
  match t.2.2 with
  | .pic p => some ((t.1, t.2.1), p)
  | .other => none

/-- All picture shapes of the presentation with their 1-based coordinates,
in document order. -/
def allPicsIdx (prs : Prs) : List ((Nat × Nat) × PicData) :=
  (enumShapes prs).filterMap picIdxOf

/-- All picture shapes in document order. -/
def picsInOrder (prs : Prs) : List PicData := (allPicsIdx prs).map Prod.snd

/-- The first picture shape (in document order) whose bytes equal `b`;
this is the claim-side description of the naming authority. -/
def firstPicWithBlob (prs : Prs) (b : List Nat) : Option PicData :=
  (picsInOrder prs).find? (fun p => p.blob = b)

/-- The distinct image contents in order of first appearance. -/
def distinctBlobs (prs : Prs) : List (List Nat) :=
  firstOccList (picBlobs prs)

/-- The first indexed picture with the given bytes among a shape prefix. -/
def picFindIdx (ts : List (Nat × Nat × PShape)) (b : List Nat) :
    Option ((Nat × Nat) × PicData) :=
  (ts.filterMap picIdxOf).find? (fun q => q.2.blob = b)

/-- The picture blobs of a shape prefix. -/
def tsBlobs (ts : List (Nat × Nat × PShape)) : List (List Nat) :=
  (ts.filterMap picIdxOf).map (fun q => q.2.blob)

theorem picBlobs_eq_tsBlobs (prs : Prs) :
    picBlobs prs = tsBlobs (enumShapes prs) := by
  unfold picBlobs tsBlobs
  induction enumShapes prs with
  | nil => rfl
  | cons t ts ih =>
    rcases t with ⟨i, j, sh⟩
    cases sh with
    | pic p => simp [picIdxOf, ih]
    | other => simp [picIdxOf, ih]

/-- Invariant carried through the first pass: the ordered list is the
first-occurrence deduplication of the blobs seen so far, the occurrence
dict is keyed exactly by it, and every recorded coordinate refers to the
first picture with that content. -/
def FPInv (ts : List (Nat × Nat × PShape)) (st : FirstPassState) : Prop :=
  st.ordered = firstOccList (tsBlobs ts)
    ∧ st.firstOcc.map Prod.fst = st.ordered
    ∧ ∀ e ∈ st.firstOcc, ∃ p : PicData,
        picFindIdx ts e.1 = some ((e.2.1, e.2.2), p)

theorem tsBlobs_append (ts : List (Nat × Nat × PShape))
    (t : Nat × Nat × PShape) :
    tsBlobs (ts ++ [t]) = tsBlobs ts ++
      (match picIdxOf t with
       | some q => [q.2.blob]
       | none => []) := by
  unfold tsBlobs
  rw [List.filterMap_append]
  cases hq : picIdxOf t <;> simp [hq]

theorem fpinv_step (ts : List (Nat × Nat × PShape)) (t : Nat × Nat × PShape)
    (st : FirstPassState) (h : FPInv ts st) :
    FPInv (ts ++ [t]) (firstPassStep st t) := by
  obtain ⟨hord, hkeys, hcoords⟩ := h
  rcases t with ⟨i, j, sh⟩
  cases sh with
  | other =>
    have hb : tsBlobs (ts ++ [(i, j, PShape.other)]) = tsBlobs ts := by
      rw [tsBlobs_append]
      simp [picIdxOf]
    have hfi : ∀ b, picFindIdx (ts ++ [(i, j, PShape.other)]) b
        = picFindIdx ts b := by
      intro b
      unfold picFindIdx
      rw [List.filterMap_append]
      simp [picIdxOf]
    refine ⟨by rw [hb]; exact hord, hkeys, ?_⟩
    intro e he
    rw [hfi]
    exact hcoords e he
  | pic p =>
    have hb : tsBlobs (ts ++ [(i, j, PShape.pic p)])
        = tsBlobs ts ++ [p.blob] := by
      rw [tsBlobs_append]
      simp [picIdxOf]
    have hfm : (ts ++ [(i, j, PShape.pic p)]).filterMap picIdxOf
        = ts.filterMap picIdxOf ++ [((i, j), p)] := by
      rw [List.filterMap_append]
      simp [picIdxOf]
    unfold firstPassStep
    simp only
    by_cases hmem : p.blob ∈ st.ordered
    · rw [if_pos hmem]
      refine ⟨?_, hkeys, ?_⟩
      · rw [hb, firstOccList_append_singleton, if_pos (hord ▸ hmem), hord]
      · intro e he
        obtain ⟨q, hq⟩ := hcoords e he
        refine ⟨q, ?_⟩
        unfold picFindIdx at hq ⊢
        rw [hfm, List.find?_append, hq]
        rfl
    · rw [if_neg hmem]
      refine ⟨?_, ?_, ?_⟩
      · simp only
        rw [hb, firstOccList_append_singleton, if_neg (hord ▸ hmem), hord]
      · simp only [List.map_append]
        rw [hkeys]
        rfl
      · intro e he
        simp only [List.mem_append, List.mem_singleton] at he
        rcases he with he | rfl
        · obtain ⟨q, hq⟩ := hcoords e he
          refine ⟨q, ?_⟩
          unfold picFindIdx at hq ⊢
          rw [hfm, List.find?_append, hq]
          rfl
        · refine ⟨p, ?_⟩
          unfold picFindIdx
          rw [hfm, List.find?_append]
          have hnone : (ts.filterMap picIdxOf).find?
              (fun q => q.2.blob = p.blob) = none := by
            rw [List.find?_eq_none]
            intro q hq hqb
            apply hmem
            rw [hord, firstOccList_mem]
            unfold tsBlobs
            simp only [decide_eq_true_eq] at hqb
            rw [← hqb]
            exact List.mem_map_of_mem _ hq
          rw [hnone]
          simp

theorem fpinv_fold (ts : List (Nat × Nat × PShape)) :
    ∀ (pre : List (Nat × Nat × PShape)) (st : FirstPassState),
      FPInv pre st → FPInv (pre ++ ts) (ts.foldl firstPassStep st) := by
  induction ts with
  | nil => intro pre st h; simpa using h
  | cons t ts ih =>
    intro pre st h
    have h2 := fpinv_step pre t st h
    have h3 := ih (pre ++ [t]) _ h2
    rw [List.append_assoc] at h3
    simpa using h3

theorem fpinv_firstPass (prs : Prs) : FPInv (enumShapes prs) (firstPass prs) := by
  have h := fpinv_fold (enumShapes prs) [] { ordered := [], firstOcc := [] }
    ⟨rfl, rfl, by intro e he; cases he⟩
  simpa [firstPass] using h

theorem firstPass_ordered (prs : Prs) :
    (firstPass prs).ordered = distinctBlobs prs := by
  have h := (fpinv_firstPass prs).1
  rw [h, distinctBlobs, picBlobs_eq_tsBlobs]

theorem mem_enumShapes_getShape (prs : Prs) (i j : Nat) (sh : PShape)
    (h : (i, j, sh) ∈ enumShapes prs) : getShape prs i j = some sh := by
  unfold enumShapes at h
  rw [List.mem_flatten] at h
  obtain ⟨inner, hin, hmem⟩ := h
  rw [List.mem_map] at hin
  obtain ⟨sl, hsl, rfl⟩ := hin
  rw [List.mem_map] at hmem
  obtain ⟨sh2, hsh2, heq⟩ := hmem
  rw [Prod.ext_iff] at heq
  obtain ⟨hi, hjs⟩ := heq
  rw [Prod.ext_iff] at hjs
  obtain ⟨hj, hsh⟩ := hjs
  dsimp only at hi hj hsh
  rw [List.mem_enum_iff_getElem?] at hsl hsh2
  unfold getShape
  rw [← hi, ← hj, ← hsh]
  simp only [Nat.add_sub_cancel]
  rw [List.get?_eq_getElem?, hsl]
  simp only
  rw [List.get?_eq_getElem?, hsh2]

theorem mem_allPicsIdx_getShape (prs : Prs) (i j : Nat) (p : PicData)
    (h : ((i, j), p) ∈ allPicsIdx prs) : getShape prs i j = some (.pic p) := by
  unfold allPicsIdx at h
  rw [List.mem_filterMap] at h
  obtain ⟨t, ht, hpt⟩ := h
  rcases t with ⟨i2, j2, sh⟩
  cases sh with
  | pic q =>
    unfold picIdxOf at hpt
    simp only [Option.some_inj, Prod.mk.injEq] at hpt
    obtain ⟨⟨hi, hj⟩, hq⟩ := hpt
    subst hi
    subst hj
    subst hq
    exact mem_enumShapes_getShape prs i2 j2 (.pic q) ht
  | other => simp [picIdxOf] at hpt

theorem firstPicWithBlob_eq (prs : Prs) (b : List Nat) :
    firstPicWithBlob prs b = (picFindIdx (enumShapes prs) b).map Prod.snd := by
  unfold firstPicWithBlob picsInOrder picFindIdx allPicsIdx
  rw [List.find?_map]
  rfl

/-- The extension recorded for a content: the extension of the first picture
shape carrying it. -/
def extOfFirst (prs : Prs) (b : List Nat) : Str :=
  match firstPicWithBlob prs b with
  | some p => p.ext
  | none => []

theorem ordered_lookup (prs : Prs) :
    ∀ b ∈ (firstPass prs).ordered, ∃ i j, ∃ p : PicData,
      dictGet? (firstPass prs).firstOcc b = some (i, j)
        ∧ getShape prs i j = some (.pic p)
        ∧ firstPicWithBlob prs b = some p := by
  intro b hb
  obtain ⟨hord, hkeys, hcoords⟩ := fpinv_firstPass prs
  have hbk : b ∈ (firstPass prs).firstOcc.map Prod.fst := by
    rw [hkeys]
    exact hb
  rw [List.mem_map] at hbk
  obtain ⟨e, he, hbe⟩ := hbk
  obtain ⟨p, hp⟩ := hcoords e he
  have hnd : ((firstPass prs).firstOcc.map Prod.fst).Nodup := by
    rw [hkeys, hord]
    exact firstOccList_nodup _
  have hget := dictGet?_of_map_nodup _ hnd e he
  refine ⟨e.2.1, e.2.2, p, ?_, ?_, ?_⟩
  · rw [← hbe, hget]
  · exact mem_allPicsIdx_getShape _ _ _ _ (List.mem_of_find?_eq_some hp)
  · rw [firstPicWithBlob_eq, ← hbe]
    unfold picFindIdx at hp
    rw [show picFindIdx (enumShapes prs) e.1 = some ((e.2.1, e.2.2), p)
      from hp]
    rfl

theorem foldl_append_map {α β : Type} (step : List β → α → List β)
    (f : α → β) (l : List α)
    (h : ∀ e ∈ l, ∀ acc, step acc e = acc ++ [f e]) :
    ∀ acc, l.foldl step acc = acc ++ l.map f := by
  induction l with
  | nil => simp
  | cons e l ih =>
    intro acc
    rw [List.foldl_cons, h e (List.mem_cons_self e l) acc,
      ih (fun x hx acc2 => h x (List.mem_cons_of_mem e hx) acc2),
      List.map_cons]
    simp

theorem assignNames_eq (prs : Prs) :
    assignNames prs (firstPass prs)
      = (firstPass prs).ordered.enum.map
          (fun e => (e.2, imageNameFor (e.1 + 1) (extOfFirst prs e.2))) := by
  unfold assignNames
  refine (foldl_append_map _ (fun e : Nat × List Nat =>
      (e.2, imageNameFor (e.1 + 1) (extOfFirst prs e.2))) _ ?_ []).trans
      (by simp)
  intro e he acc
  obtain ⟨i, j, p, hget, hshape, hfirst⟩ :=
    ordered_lookup prs e.2 (List.snd_mem_of_mem_enum he)
  dsimp only
  rw [hget]
  dsimp only
  rw [hshape]
  have hext : extOfFirst prs e.2 = p.ext := by
    unfold extOfFirst
    rw [hfirst]
  rw [hext]

theorem b2i_eq (prs : Prs) :
    (find_unique_images prs).2.1
      = (distinctBlobs prs).enum.map
          (fun e => (e.2, imageNameFor (e.1 + 1) (extOfFirst prs e.2))) := by
  show assignNames prs (firstPass prs) = _
  rw [assignNames_eq, firstPass_ordered]

theorem enum_map_snd2 {α : Type} (l : List α) :
    l.enum.map Prod.snd = l := by
  unfold List.enum
  suffices h : ∀ n, (l.enumFrom n).map Prod.snd = l from h 0
  induction l with
  | nil => intro n; rfl
  | cons a l ih => intro n; simp [List.enumFrom, ih]

theorem b2i_keys (prs : Prs) :
    ((find_unique_images prs).2.1).map Prod.fst = distinctBlobs prs := by
  rw [b2i_eq, List.map_map]
  have h : (Prod.fst ∘ fun e : Nat × List Nat =>
      (e.2, imageNameFor (e.1 + 1) (extOfFirst prs e.2)))
      = Prod.snd := rfl
  rw [h, enum_map_snd2]

theorem b2i_lookup (prs : Prs) (b : List Nat) (hb : b ∈ distinctBlobs prs) :
    ∃ k, k < (distinctBlobs prs).length
      ∧ dictGet? (find_unique_images prs).2.1 b
          = some (imageNameFor (k + 1) (extOfFirst prs b)) := by
  obtain ⟨k, hk, hgetb⟩ := List.mem_iff_getElem.mp hb
  refine ⟨k, hk, ?_⟩
  have hmem : ((k, b) : Nat × List Nat) ∈ (distinctBlobs prs).enum := by
    rw [List.mk_mem_enum_iff_getElem?, List.getElem?_eq_getElem hk, hgetb]
  have hent : (b, imageNameFor (k + 1) (extOfFirst prs b))
      ∈ (find_unique_images prs).2.1 := by
    rw [b2i_eq]
    exact List.mem_map_of_mem _ hmem
  have hnd : (((find_unique_images prs).2.1).map Prod.fst).Nodup := by
    rw [b2i_keys]
    exact firstOccList_nodup _
  have hres := dictGet?_of_map_nodup _ hnd _ hent
  simpa using hres

/-- Claim C2: the k-th distinct image content, counting slides and shapes in
document order, is assigned the stable name `image_(k+1)` carrying the
extension of its first occurrence (`png` for a WMF).  The assignment is read
off the ordered first-occurrence list, never from hash-table iteration
order, and `find_unique_images` is a pure function of the presentation, so
re-running it yields identical names. -/
theorem claim_C2 (prs : Prs) (k : Nat)
    (hk : k < (distinctBlobs prs).length) :
    ∃ p : PicData,
      firstPicWithBlob prs ((distinctBlobs prs)[k]) = some p
        ∧ (find_unique_images prs).2.1[k]?
            = some ((distinctBlobs prs)[k], imageNameFor (k + 1) p.ext)
        ∧ dictGet? (find_unique_images prs).2.1 ((distinctBlobs prs)[k])
            = some (imageNameFor (k + 1) p.ext) := by
  have hbmem : (distinctBlobs prs)[k] ∈ distinctBlobs prs :=
    List.getElem_mem hk
  have hbmem2 : (distinctBlobs prs)[k] ∈ (firstPass prs).ordered := by
    rw [firstPass_ordered]
    exact hbmem
  obtain ⟨i, j, p, hget, hshape, hfirst⟩ := ordered_lookup prs _ hbmem2
  refine ⟨p, hfirst, ?_, ?_⟩
  · rw [b2i_eq]
    rw [List.getElem?_map, List.getElem?_enum,
      List.getElem?_eq_getElem hk]
    have hext : extOfFirst prs ((distinctBlobs prs)[k]) = p.ext := by
      unfold extOfFirst
      rw [hfirst]
    simp [hext]
  · have hmem : ((k, (distinctBlobs prs)[k]) : Nat × List Nat)
        ∈ (distinctBlobs prs).enum := by
      rw [List.mk_mem_enum_iff_getElem?, List.getElem?_eq_getElem hk]
    have hent : ((distinctBlobs prs)[k],
        imageNameFor (k + 1) (extOfFirst prs ((distinctBlobs prs)[k])))
        ∈ (find_unique_images prs).2.1 := by
      rw [b2i_eq]
      exact List.mem_map_of_mem _ hmem
    have hnd : (((find_unique_images prs).2.1).map Prod.fst).Nodup := by
      rw [b2i_keys]
      exact firstOccList_nodup _
    have hres := dictGet?_of_map_nodup _ hnd _ hent
    have hext : extOfFirst prs ((distinctBlobs prs)[k]) = p.ext := by
      unfold extOfFirst
      rw [hfirst]
    rw [hext] at hres
    exact hres

/-! ## Extraction pass invariants (claims C1 and C3) -/

/-- The stem of a file name (`splitExt` first component). -/
def stem1 (s : Str) : Str := (splitExt s).1

theorem takeWhile_append_all (p : Char → Bool) (l l2 : Str)
    (h : ∀ c ∈ l, p c = true) :
    (l ++ l2).takeWhile p = l ++ l2.takeWhile p := by
  induction l with
  | nil => rfl
  | cons c cs ih =>
    rw [List.cons_append, List.takeWhile_cons, h c (List.mem_cons_self c cs),
      ih (fun x hx => h x (List.mem_cons_of_mem c hx))]
    rfl

theorem dropWhile_append_all (p : Char → Bool) (l l2 : Str)
    (h : ∀ c ∈ l, p c = true) :
    (l ++ l2).dropWhile p = l2.dropWhile p := by
  induction l with
  | nil => rfl
  | cons c cs ih =>
    rw [List.cons_append, List.dropWhile_cons, h c (List.mem_cons_self c cs)]
    exact ih (fun x hx => h x (List.mem_cons_of_mem c hx))

theorem splitExt_append_ext (x t : Str) (hx : ¬ x = []) (ht : ¬ t = [])
    (hdot : ¬ '.' ∈ t) : splitExt (x ++ '.' :: t) = (x, '.' :: t) := by
  have hrev : (x ++ '.' :: t).reverse = t.reverse ++ '.' :: x.reverse := by
    rw [List.reverse_append, List.reverse_cons, List.append_assoc]
    rfl
  have hall : ∀ c ∈ t.reverse, (fun c => decide (¬ c = '.')) c = true := by
    intro c hc
    rw [List.mem_reverse] at hc
    simp only [decide_eq_true_eq]
    intro hcd
    exact hdot (hcd ▸ hc)
  have htake : (x ++ '.' :: t).reverse.takeWhile (fun c => ¬ c = '.')
      = t.reverse := by
    rw [hrev, takeWhile_append_all _ _ _ hall, List.takeWhile_cons]
    simp
  have hdrop : (x ++ '.' :: t).reverse.dropWhile (fun c => ¬ c = '.')
      = '.' :: x.reverse := by
    rw [hrev, dropWhile_append_all _ _ _ hall, List.dropWhile_cons]
    simp
  unfold splitExt
  rw [htake, hdrop]
  have hx2 : ¬ x.reverse = [] := by
    simpa using hx
  have ht2 : ¬ t.reverse = [] := by
    simpa using ht
  dsimp only
  rw [if_neg hx2, if_neg ht2]
  simp

theorem stem1_ne_nil (name : Str) (h : ¬ name = []) : ¬ stem1 name = [] := by
  unfold stem1 splitExt
  split
  · exact h
  · split
    · exact h
    · split
      · exact h
      · rename_i hrest2 _
        simpa using hrest2

theorem stem1_withSuffix (v e t : Str) (hv : ¬ v = [])
    (he : e = '.' :: t) (ht : ¬ t = []) (hdot : ¬ '.' ∈ t) :
    stem1 (withSuffix v e) = stem1 v := by
  subst he
  have hne : ¬ (splitExt v).1 = [] := stem1_ne_nil v hv
  unfold withSuffix stem1
  rw [splitExt_append_ext _ _ hne ht hdot]

theorem imageNameFor_ne_nil (k : Nat) (ext : Str) :
    ¬ imageNameFor k ext = [] := by
  intro h
  have h2 := congrArg List.length h
  unfold imageNameFor at h2
  rw [List.length_append, List.length_append, List.length_nil] at h2
  have h3 : (("image_").data).length = 6 := by decide
  omega

theorem extract_fileName_stem (magick : Bool) (conv : List Nat → WmfResult)
    (p : PicData) (v : Str) (hvne : ¬ v = []) :
    stem1 (if p.ext = ("wmf").data then
        if magick then
          match conv p.blob with
          | .svg => withSuffix v ((".svg").data)
          | .png => withSuffix v ((".png").data)
          | .fail => withSuffix v ((".wmf").data)
        else withSuffix v ((".wmf").data)
      else v) = stem1 v := by
  have hsvg : stem1 (withSuffix v ((".svg").data)) = stem1 v :=
    stem1_withSuffix v _ (("svg").data) hvne (by decide) (by decide) (by decide)
  have hpng : stem1 (withSuffix v ((".png").data)) = stem1 v :=
    stem1_withSuffix v _ (("png").data) hvne (by decide) (by decide) (by decide)
  have hwmf : stem1 (withSuffix v ((".wmf").data)) = stem1 v :=
    stem1_withSuffix v _ (("wmf").data) hvne (by decide) (by decide) (by decide)
  split
  · split
    · cases conv p.blob
      · exact hsvg
      · exact hpng
      · exact hwmf
    · exact hwmf
  · rfl

theorem create_image_mappings_val (p : PicData) (v : Str) :
    ∀ e ∈ create_image_mappings p v, e.2 = v := by
  intro e he
  unfold create_image_mappings at he
  rcases dictUpdate_mem [] _ e he with h | h
  · cases h
  · rw [List.mem_append] at h
    rcases h with h | h
    · simp only [List.mem_cons, List.mem_singleton] at h
      rcases h with rfl | rfl | rfl | h
      · rfl
      · rfl
      · rfl
      · cases h
    · have hfold := foldl_hold
        (fun acc (ext : Str) => acc
          ++ [(normalize_image_name p.name ++ ext, v),
              (pyStem p.name ++ ext, v)])
        (fun acc => ∀ e ∈ acc, e.2 = v) ?_
        [(".jpg").data, (".jpeg").data, (".png").data, (".gif").data]
        [] (by intro e he2; cases he2)
      · exact hfold e h
      · intro acc a hacc e2 he2
        rw [List.mem_append] at he2
        rcases he2 with he2 | he2
        · exact hacc e2 he2
        · simp only [List.mem_cons, List.mem_singleton] at he2
          rcases he2 with rfl | rfl | h2
          · rfl
          · rfl
          · cases h2

/-- Invariant carried through the extraction pass: the processed set is the
first-occurrence deduplication of the blobs seen so far; the write log
records exactly one file per processed content, in that order; each written
file name shares its stem with the assigned stable name; and every name
mapping points at a stable name whose file was written. -/
def EInv (prs : Prs) (pre : List (Nat × Nat × PShape)) (st : ExtractState) :
    Prop :=
  st.processed = firstOccList (tsBlobs pre)
    ∧ st.writes.map Prod.snd = st.processed
    ∧ (∀ b ∈ st.processed, ∃ w ∈ st.writes, w.2 = b
        ∧ ∃ v, dictGet? (find_unique_images prs).2.1 b = some v
          ∧ stem1 w.1 = stem1 v)
    ∧ (∀ e ∈ st.imageMap, ∃ w ∈ st.writes, stem1 w.1 = stem1 e.2)

set_option maxHeartbeats 1600000 in
theorem einv_step (prs : Prs) (magick : Bool) (conv : List Nat → WmfResult)
    (pre : List (Nat × Nat × PShape)) (t : Nat × Nat × PShape)
    (ht : t ∈ enumShapes prs) (st : ExtractState) (h : EInv prs pre st) :
    EInv prs (pre ++ [t])
      (extractStep magick conv (find_unique_images prs).2.1 st t.2.2) := by
  obtain ⟨hproc, hwr, hwb, hmap⟩ := h
  rcases t with ⟨i, j, sh⟩
  cases sh with
  | other =>
    have hb : tsBlobs (pre ++ [(i, j, PShape.other)]) = tsBlobs pre := by
      rw [tsBlobs_append]
      simp [picIdxOf]
    exact ⟨by rw [hb]; exact hproc, hwr, hwb, hmap⟩
  | pic p =>
    have hb : tsBlobs (pre ++ [(i, j, PShape.pic p)])
        = tsBlobs pre ++ [p.blob] := by
      rw [tsBlobs_append]
      simp [picIdxOf]
    have hbpic : p.blob ∈ picBlobs prs := by
      unfold picBlobs
      rw [List.mem_filterMap]
      exact ⟨(i, j, PShape.pic p), ht, rfl⟩
    have hbd : p.blob ∈ distinctBlobs prs :=
      (firstOccList_mem _ _).mpr hbpic
    obtain ⟨k, hk, hv⟩ := b2i_lookup prs p.blob hbd
    have hvne : ¬ imageNameFor (k + 1) (extOfFirst prs p.blob) = [] :=
      imageNameFor_ne_nil _ _
    unfold extractStep
    dsimp only
    rw [hv]
    dsimp only
    by_cases hmem : p.blob ∈ st.processed
    · rw [if_pos hmem]
      refine ⟨?_, hwr, hwb, ?_⟩
      · rw [hb, firstOccList_append_singleton, if_pos (hproc ▸ hmem)]
        exact hproc
      · intro e he
        rcases dictUpdate_mem _ _ e he with he2 | he2
        · exact hmap e he2
        · have hval := create_image_mappings_val p _ e he2
          obtain ⟨w, hw, hwb2, v2, hv2, hst⟩ := hwb p.blob hmem
          rw [hv] at hv2
          rw [Option.some_inj] at hv2
          exact ⟨w, hw, by rw [hst, hval, ← hv2]⟩
    · rw [if_neg hmem]
      have hstem := extract_fileName_stem magick conv p
        (imageNameFor (k + 1) (extOfFirst prs p.blob)) hvne
      refine ⟨?_, ?_, ?_, ?_⟩
      · simp only
        rw [hb, firstOccList_append_singleton, if_neg (hproc ▸ hmem)]
        rw [hproc]
      · simp only [List.map_append]
        rw [hwr]
        rfl
      · intro b hb2
        simp only [List.mem_append, List.mem_singleton] at hb2
        rcases hb2 with hb2 | rfl
        · obtain ⟨w, hw, hwb2, v2, hv2, hst⟩ := hwb b hb2
          exact ⟨w, List.mem_append_left _ hw, hwb2, v2, hv2, hst⟩
        · refine ⟨_, List.mem_append_right _ (List.mem_singleton_self _),
            rfl, imageNameFor (k + 1) (extOfFirst prs p.blob), hv, ?_⟩
          exact hstem
      · intro e he
        rcases dictUpdate_mem _ _ e he with he2 | he2
        · obtain ⟨w, hw, hst⟩ := hmap e he2
          exact ⟨w, List.mem_append_left _ hw, hst⟩
        · have hval := create_image_mappings_val p _ e he2
          refine ⟨_, List.mem_append_right _ (List.mem_singleton_self _), ?_⟩
          rw [hval]
          exact hstem

theorem einv_fold (prs : Prs) (magick : Bool) (conv : List Nat → WmfResult) :
    ∀ (ts pre : List (Nat × Nat × PShape)) (st : ExtractState),
      (∀ t ∈ ts, t ∈ enumShapes prs) → EInv prs pre st →
      EInv prs (pre ++ ts)
        (ts.foldl (fun st2 t =>
          extractStep magick conv (find_unique_images prs).2.1 st2 t.2.2)
          st) := by
  intro ts
  induction ts with
  | nil => intro pre st _ h; simpa using h
  | cons t ts ih =>
    intro pre st hts h
    have h2 := einv_step prs magick conv pre t
      (hts t (List.mem_cons_self t ts)) st h
    have h3 := ih (pre ++ [t]) _
      (fun x hx => hts x (List.mem_cons_of_mem t hx)) h2
    rw [List.append_assoc] at h3
    simpa using h3

theorem einv_extract (prs : Prs) (magick : Bool)
    (conv : List Nat → WmfResult) :
    EInv prs (enumShapes prs) (extract_pptx_images magick conv prs) := by
  have hinit : EInv prs [] { processed := [], writes := [], imageMap := [] } := by
    unfold EInv
    refine ⟨rfl, rfl, ?_, ?_⟩
    · intro b hb
      cases hb
    · intro e he
      cases he
  have h := einv_fold prs magick conv (enumShapes prs) []
    { processed := [], writes := [], imageMap := [] }
    (fun t ht => ht) hinit
  simpa [extract_pptx_images, find_unique_images] using h

/-- Claim C1: for every presentation, the extraction pass writes exactly one
file per distinct image content, in first-occurrence order — so with N
embedded images of which M are byte-identical duplicates of earlier ones,
exactly N - M files are written, and no content is ever written twice.
`magick` and `conv` range over every environment condition of the WMF
conversion collaborator. -/
theorem claim_C1 (prs : Prs) (magick : Bool)
    (conv : List Nat → WmfResult) :
    ((extract_pptx_images magick conv prs).writes.map Prod.snd
        = distinctBlobs prs)
      ∧ (extract_pptx_images magick conv prs).writes.length
          = (picBlobs prs).length
            - ((picBlobs prs).length - (picBlobs prs).dedup.length)
      ∧ ((extract_pptx_images magick conv prs).writes.map Prod.snd).Nodup := by
  obtain ⟨hproc, hwr, -, -⟩ := einv_extract prs magick conv
  have ha : (extract_pptx_images magick conv prs).writes.map Prod.snd
      = distinctBlobs prs := by
    rw [hwr, hproc, distinctBlobs, picBlobs_eq_tsBlobs]
  refine ⟨ha, ?_, ?_⟩
  · have hlen : (extract_pptx_images magick conv prs).writes.length
        = (distinctBlobs prs).length := by
      rw [← ha, List.length_map]
    have hd := firstOccList_length_eq_dedup (picBlobs prs)
    have hle : (picBlobs prs).dedup.length ≤ (picBlobs prs).length :=
      (List.dedup_sublist _).length_le
    rw [hlen]
    unfold distinctBlobs
    omega
  · rw [ha]
    exact firstOccList_nodup _

/-- Claim C2 witness input: three pictures on one slide, the first and third
sharing their bytes, the second a WMF. -/
def picW2a : PicData :=
  { name := ("Picture 1").data, blob := [1], ext := ("png").data }

def picW2b : PicData :=
  { name := ("Picture 2").data, blob := [2], ext := ("wmf").data }

def picW2c : PicData :=
  { name := ("Picture 3").data, blob := [1], ext := ("png").data }

def prsW2 : Prs :=
  [[PShape.pic picW2a, PShape.pic picW2b, PShape.pic picW2c]]

/-- C2 witness: on the concrete presentation, the second distinct content
(the WMF bytes `[2]`) is assigned `image_2.png`. -/
theorem claim_C2_witness :
    1 < (distinctBlobs prsW2).length
      ∧ ∃ p : PicData,
        firstPicWithBlob prsW2 ((distinctBlobs prsW2).get (Fin.mk 1 (by decide))) = some p
          ∧ (find_unique_images prsW2).2.1[1]?
              = some ((distinctBlobs prsW2).get (Fin.mk 1 (by decide)),
                  imageNameFor 2 p.ext)
          ∧ dictGet? (find_unique_images prsW2).2.1
                ((distinctBlobs prsW2).get (Fin.mk 1 (by decide)))
              = some (imageNameFor 2 p.ext) :=
  ⟨by decide, claim_C2 prsW2 1 (by decide)⟩

/-- Claim C3 counterexample input: a single WMF image, ImageMagick
unavailable. -/
def prsWmfOnly : Prs :=
  [[PShape.pic { name := ("Pic W").data, blob := [9],
                 ext := ("wmf").data }]]

/-- C3 counterexample: with one WMF image and conversion unavailable, the
name-variant map records the intended stable name `image_1.png`, but the
only file actually written is `image_1.wmf` — so the key does not map to a
name under which a file was written, refuting the claim as stated (while
confirming that the intended name is recorded rather than lost). -/
theorem claim_C3_counterexample :
    ((("Pic W").data, ("image_1.png").data)
        ∈ (extract_pptx_images false (fun _ => WmfResult.fail)
            prsWmfOnly).imageMap)
      ∧ (extract_pptx_images false (fun _ => WmfResult.fail)
          prsWmfOnly).writes.map Prod.fst = [("image_1.wmf").data]
      ∧ ¬ (("image_1.png").data
          ∈ (extract_pptx_images false (fun _ => WmfResult.fail)
              prsWmfOnly).writes.map Prod.fst) := by
  decide

/-- Claim C3 (amended): every key of the name-variant map maps to a stable
name for which a file sharing that name's stem was actually written into the
image directory; for non-WMF images the file name is the stable name itself,
while for a WMF whose conversion is unavailable or fails the recorded name
keeps the intended `.png` extension and the file is written under the same
stem with the `.wmf` (or converted `.svg`/`.png`) extension, so the mapping
is recorded rather than silently lost. -/
theorem claim_C3 (prs : Prs) (magick : Bool) (conv : List Nat → WmfResult) :
    ∀ e ∈ (extract_pptx_images magick conv prs).imageMap,
      ∃ w ∈ (extract_pptx_images magick conv prs).writes,
        stem1 w.1 = stem1 e.2 := by
  obtain ⟨-, -, -, hmap⟩ := einv_extract prs magick conv
  exact hmap

/-- C3 witness: the WMF counterexample input itself satisfies the amended
claim — the mapped value `image_1.png` shares its stem with the written
file `image_1.wmf`. -/
theorem claim_C3_witness :
    ∃ w ∈ (extract_pptx_images false (fun _ => WmfResult.fail)
        prsWmfOnly).writes,
      stem1 w.1 = stem1 (("image_1.png").data) :=
  claim_C3 prsWmfOnly false (fun _ => WmfResult.fail)
    ((("Pic W").data, ("image_1.png").data)) (by decide)

/-! ## Claim C10: `sanitize_title` is idempotent -/

theorem filterMap_id_of {α : Type} (f : α → Option α) (l : List α)
    (h : ∀ c ∈ l, f c = some c) : l.filterMap f = l := by
  induction l with
  | nil => rfl
  | cons c cs ih =>
    rw [List.filterMap_cons, h c (List.mem_cons_self c cs),
      ih (fun x hx => h x (List.mem_cons_of_mem c hx))]

theorem titleRepl_of_keep (c : Char) (h : titleKeep c = true) :
    titleRepl c = some c := by
  unfold titleRepl
  have h1 : ¬ (c = enDashCh ∨ c = emDashCh) := by
    rintro (rfl | rfl)
    · exact absurd h (by decide)
    · exact absurd h (by decide)
  have h2 : ¬ (c = tmSignCh ∨ c = regSignCh ∨ c = copySignCh) := by
    rintro (rfl | rfl | rfl)
    · exact absurd h (by decide)
    · exact absurd h (by decide)
    · exact absurd h (by decide)
  have h3 : ¬ c = '[' := by
    rintro rfl
    exact absurd h (by decide)
  have h4 : ¬ c = ']' := by
    rintro rfl
    exact absurd h (by decide)
  rw [if_neg h1, if_neg h2, if_neg h3, if_neg h4]

/-- The step function of `pyWordsAux` seen as a right fold. -/
def wordStep (c : Char) (st : Str × List Str) : Str × List Str :=
  if pyIsSpace c then ([], if st.1 = [] then st.2 else st.1 :: st.2)
  else (c :: st.1, st.2)

theorem pyWordsAux_eq_foldr (l : Str) :
    pyWordsAux l = l.foldr wordStep ([], []) := by
  induction l with
  | nil => rfl
  | cons c cs ih =>
    rw [List.foldr_cons, ← ih]
    rfl

theorem foldr_wordStep_word (w : Str) (st : Str × List Str)
    (h : ∀ c ∈ w, pyIsSpace c = false) :
    w.foldr wordStep st = (w ++ st.1, st.2) := by
  induction w with
  | nil => rfl
  | cons c cs ih =>
    rw [List.foldr_cons, ih (fun x hx => h x (List.mem_cons_of_mem c hx))]
    unfold wordStep
    rw [if_neg (by rw [h c (List.mem_cons_self c cs)]; exact fun hc => nomatch hc)]
    simp

theorem pyWordsAux_join (w : Str) (rest : List Str)
    (h : ∀ x ∈ w :: rest, ¬ x = [] ∧ ∀ c ∈ x, pyIsSpace c = false) :
    pyWordsAux (joinSp (w :: rest)) = (w, rest) := by
  induction rest generalizing w with
  | nil =>
    obtain ⟨-, hwsp⟩ := h w (List.mem_cons_self w [])
    show pyWordsAux w = (w, [])
    rw [pyWordsAux_eq_foldr, foldr_wordStep_word w ([], []) hwsp]
    simp
  | cons w2 rest2 ih =>
    obtain ⟨-, hwsp⟩ := h w (List.mem_cons_self w _)
    have hjoin : joinSp (w :: w2 :: rest2) = w ++ ' ' :: joinSp (w2 :: rest2) := rfl
    have ih2 := ih w2 (fun x hx => h x (List.mem_cons_of_mem w hx))
    have haux : pyWordsAux (' ' :: joinSp (w2 :: rest2)) = ([], w2 :: rest2) := by
      show wordStep ' ' (pyWordsAux (joinSp (w2 :: rest2))) = ([], w2 :: rest2)
      rw [ih2]
      unfold wordStep
      rw [if_pos (by decide)]
      obtain ⟨hw2, -⟩ := h w2 (List.mem_cons_of_mem w (List.mem_cons_self w2 rest2))
      simp only
      rw [if_neg hw2]
    rw [hjoin, pyWordsAux_eq_foldr, List.foldr_append, ← pyWordsAux_eq_foldr,
      haux, foldr_wordStep_word w ([], w2 :: rest2) hwsp]
    simp

theorem pyWordsOf_props (l : Str) :
    (∀ c ∈ (pyWordsAux l).1, pyIsSpace c = false ∧ c ∈ l)
    ∧ ∀ w ∈ (pyWordsAux l).2,
        ¬ w = [] ∧ ∀ c ∈ w, pyIsSpace c = false ∧ c ∈ l := by
  induction l with
  | nil =>
    refine ⟨?_, ?_⟩
    · intro c hc
      cases hc
    · intro w hw
      cases hw
  | cons a l ih =>
    obtain ⟨ihcur, ihws⟩ := ih
    rcases haux : pyWordsAux l with ⟨cur, ws⟩
    rw [haux] at ihcur ihws
    dsimp only at ihcur ihws
    unfold pyWordsAux
    rw [haux]
    dsimp only
    by_cases ha : pyIsSpace a = true
    · rw [if_pos ha]
      refine ⟨?_, ?_⟩
      · intro c hc
        cases hc
      · intro w hw
        dsimp only at hw
        have hw2 : w ∈ ws ∨ (¬ cur = [] ∧ w = cur) := by
          by_cases hcur : cur = []
          · rw [if_pos hcur] at hw
            exact Or.inl hw
          · rw [if_neg hcur, List.mem_cons] at hw
            rcases hw with rfl | hw
            · exact Or.inr ⟨hcur, rfl⟩
            · exact Or.inl hw
        rcases hw2 with hw2 | ⟨hcur, rfl⟩
        · obtain ⟨h1, h2⟩ := ihws w hw2
          exact ⟨h1, fun c hc => ⟨(h2 c hc).1,
            List.mem_cons_of_mem a (h2 c hc).2⟩⟩
        · exact ⟨hcur, fun c hc => ⟨(ihcur c hc).1,
            List.mem_cons_of_mem a (ihcur c hc).2⟩⟩
    · rw [if_neg ha]
      refine ⟨?_, ?_⟩
      · intro c hc
        rw [List.mem_cons] at hc
        rcases hc with rfl | hc
        · refine ⟨?_, List.mem_cons_self c l⟩
          revert ha
          cases pyIsSpace c <;> simp
        · exact ⟨(ihcur c hc).1, List.mem_cons_of_mem a (ihcur c hc).2⟩
      · intro w hw
        obtain ⟨h1, h2⟩ := ihws w hw
        exact ⟨h1, fun c hc => ⟨(h2 c hc).1,
          List.mem_cons_of_mem a (h2 c hc).2⟩⟩

theorem pyWordsOf_wf (l : Str) :
    ∀ w ∈ pyWordsOf l,
      (¬ w = [] ∧ ∀ c ∈ w, pyIsSpace c = false ∧ c ∈ l) := by
  intro w hw
  obtain ⟨hcur, hws⟩ := pyWordsOf_props l
  unfold pyWordsOf at hw
  rcases haux : pyWordsAux l with ⟨cur, ws⟩
  rw [haux] at hw hcur hws
  dsimp only at hw hcur hws
  by_cases hcurnil : cur = []
  · rw [if_pos hcurnil] at hw
    exact hws w hw
  · rw [if_neg hcurnil, List.mem_cons] at hw
    rcases hw with rfl | hw
    · exact ⟨hcurnil, hcur⟩
    · exact hws w hw

theorem joinSp_mem (ws : List Str) :
    ∀ c ∈ joinSp ws, c = ' ' ∨ ∃ w ∈ ws, c ∈ w := by
  induction ws with
  | nil => intro c hc; cases hc
  | cons w rest ih =>
    cases rest with
    | nil =>
      intro c hc
      exact Or.inr ⟨w, List.mem_cons_self w [], hc⟩
    | cons w2 rest2 =>
      intro c hc
      have hj : joinSp (w :: w2 :: rest2) = w ++ ' ' :: joinSp (w2 :: rest2) := rfl
      rw [hj, List.mem_append, List.mem_cons] at hc
      rcases hc with hc | rfl | hc
      · exact Or.inr ⟨w, List.mem_cons_self w _, hc⟩
      · exact Or.inl rfl
      · rcases ih c hc with h | ⟨w3, hw3, hcw⟩
        · exact Or.inl h
        · exact Or.inr ⟨w3, List.mem_cons_of_mem w hw3, hcw⟩

theorem pyWordsOf_join (ws : List Str)
    (h : ∀ w ∈ ws, ¬ w = [] ∧ ∀ c ∈ w, pyIsSpace c = false) :
    pyWordsOf (joinSp ws) = ws := by
  cases ws with
  | nil => rfl
  | cons w rest =>
    unfold pyWordsOf
    rw [pyWordsAux_join w rest h]
    dsimp only
    rw [if_neg (h w (List.mem_cons_self w rest)).1]

/-- Claim C10: `sanitize_title` is idempotent for every string, so the
navigation builder re-sanitizing an already-sanitized title never changes
it.  The output contains only kept characters and single interior spaces,
on which the substitution table, the filter and the split/join are all
identities. -/
theorem claim_C10 (s : Str) :
    sanitize_title (sanitize_title s) = sanitize_title s := by
  unfold sanitize_title
  set t := (s.filterMap titleRepl).filter titleKeep with ht
  set ws := pyWordsOf t with hws
  have hkeep : ∀ c ∈ joinSp ws, titleKeep c = true := by
    intro c hc
    rcases joinSp_mem ws c hc with rfl | ⟨w, hw, hcw⟩
    · decide
    · have h2 := (pyWordsOf_wf t w (hws ▸ hw)).2 c hcw
      have h3 : c ∈ t := h2.2
      rw [ht] at h3
      exact List.of_mem_filter h3
  have hfm : (joinSp ws).filterMap titleRepl = joinSp ws :=
    filterMap_id_of _ _ (fun c hc => titleRepl_of_keep c (hkeep c hc))
  have hfl : ((joinSp ws).filterMap titleRepl).filter titleKeep = joinSp ws := by
    rw [hfm]
    exact List.filter_eq_self.mpr hkeep
  rw [hfl]
  rw [pyWordsOf_join ws ?_]
  intro w hw
  have h2 := pyWordsOf_wf t w (hws ▸ hw)
  exact ⟨h2.1, fun c hc => (h2.2 c hc).1⟩

/-! ## Claim C9: `sanitize_filename` lemmas

The slugify output is characterized (allowed characters only, no adjacent
dashes, no dash at either end) and slugify is shown to be the identity on
strings with these properties; parsing facts about the pathlib model then
settle the amended claim. -/

/-- The no-adjacent-dash relation. -/
def noDD (a b : Char) : Prop := ¬ (a = '-' ∧ b = '-')

theorem map_id_of {α : Type} (f : α → α) (l : List α)
    (h : ∀ c ∈ l, f c = c) : l.map f = l := by
  induction l with
  | nil => rfl
  | cons c cs ih =>
    rw [List.map_cons, h c (List.mem_cons_self c cs),
      ih (fun x hx => h x (List.mem_cons_of_mem c hx))]

theorem chReplace_id (old new : Char) (l : Str)
    (h : ∀ c ∈ l, ¬ c = old) : chReplace old new l = l :=
  map_id_of _ _ (fun c hc => by rw [if_neg (h c hc)])

theorem quotePreAux_id (b : Bool) (l : Str)
    (h : ∀ c ∈ l, ¬ c = quoteCh) : quotePreAux b l = l := by
  induction l generalizing b with
  | nil => rfl
  | cons c cs ih =>
    unfold quotePreAux
    rw [if_neg (h c (List.mem_cons_self c cs)),
      ih false (fun x hx => h x (List.mem_cons_of_mem c hx))]

theorem numbersCleanAux_id (prev : Option Char) (l : Str)
    (h : ∀ c ∈ l, ¬ c = ',') : numbersCleanAux prev l = l := by
  induction l generalizing prev with
  | nil => rfl
  | cons c cs ih =>
    unfold numbersCleanAux
    rw [if_neg (by
      rintro ⟨hc, -, -⟩
      exact h c (List.mem_cons_self c cs) hc)]
    rw [ih (some c) (fun x hx => h x (List.mem_cons_of_mem c hx))]

theorem dashCollapseAux_mem (b : Bool) (l : Str) :
    ∀ c ∈ dashCollapseAux b l, c ∈ l := by
  induction l generalizing b with
  | nil => intro c hc; cases hc
  | cons a cs ih =>
    intro c hc
    unfold dashCollapseAux at hc
    by_cases ha : a = '-'
    · rw [if_pos ha] at hc
      cases b with
      | true =>
        rw [if_pos rfl] at hc
        exact List.mem_cons_of_mem a (ih true c hc)
      | false =>
        rw [if_neg (by decide)] at hc
        rw [List.mem_cons] at hc
        rcases hc with rfl | hc
        · rw [← ha]
          exact List.mem_cons_self a cs
        · exact List.mem_cons_of_mem a (ih true c hc)
    · rw [if_neg ha] at hc
      rw [List.mem_cons] at hc
      rcases hc with rfl | hc
      · exact List.mem_cons_self c cs
      · exact List.mem_cons_of_mem a (ih false c hc)

theorem dashCollapseAux_chain (l : Str) :
    ∀ b, List.Chain' noDD (dashCollapseAux b l)
      ∧ ¬ (dashCollapseAux true l).head? = some '-' := by
  induction l with
  | nil =>
    intro b
    exact ⟨List.chain'_nil, fun h => nomatch h⟩
  | cons a cs ih =>
    intro b
    refine ⟨?_, ?_⟩
    · unfold dashCollapseAux
      by_cases ha : a = '-'
      · rw [if_pos ha]
        cases b with
        | true =>
          rw [if_pos rfl]
          exact (ih true).1
        | false =>
          rw [if_neg (by decide)]
          rw [List.chain'_cons']
          refine ⟨?_, (ih true).1⟩
          intro y hy hcon
          apply (ih true).2
          have h2 : (dashCollapseAux true cs).head? = some y :=
            Option.mem_def.mp hy
          rw [h2, Option.some_inj]
          exact hcon.2
      · rw [if_neg ha]
        rw [List.chain'_cons']
        refine ⟨?_, (ih false).1⟩
        intro y hy hcon
        exact ha hcon.1
    · unfold dashCollapseAux
      by_cases ha : a = '-'
      · rw [if_pos ha, if_pos rfl]
        exact (ih true).2
      · rw [if_neg ha]
        intro h
        rw [List.head?_cons, Option.some_inj] at h
        exact ha h

theorem dashCollapseAux_id (l : Str) :
    ∀ b, List.Chain' noDD l →
      (b = true → ¬ l.head? = some '-') → dashCollapseAux b l = l := by
  induction l with
  | nil => intro b _ _; rfl
  | cons a cs ih =>
    intro b hchain hhead
    rw [List.chain'_cons'] at hchain
    unfold dashCollapseAux
    by_cases ha : a = '-'
    · cases b with
      | true =>
        exact absurd (by rw [List.head?_cons, ha]) (hhead rfl)
      | false =>
        have hcond : ¬ cs.head? = some '-' := by
          intro hh
          rcases hcs2 : cs with _ | ⟨c2, cs2⟩
          · rw [hcs2] at hh
            cases hh
          · rw [hcs2, List.head?_cons, Option.some_inj] at hh
            refine hchain.1 c2 ?_ ⟨ha, hh⟩
            rw [hcs2]
            exact Option.mem_def.mpr rfl
        rw [if_pos ha, if_neg (by decide),
          ih true hchain.2 (fun _ => hcond), ha]
    · rw [if_neg ha, ih false hchain.2 (fun hcon => nomatch hcon)]

theorem dropWhile_head_false {p : Char → Bool} (l t : Str) (c : Char)
    (h : l.dropWhile p = c :: t) : p c = false := by
  induction l with
  | nil => cases h
  | cons a cs ih =>
    rw [List.dropWhile_cons] at h
    by_cases ha : p a = true
    · rw [if_pos ha] at h
      exact ih h
    · rw [if_neg ha] at h
      rw [List.cons.injEq] at h
      rw [← h.1]
      cases hpa : p a
      · rfl
      · exact absurd hpa ha

theorem dropWhile_eq_self_of_head {p : Char → Bool} (l : Str)
    (h : ∀ c, l.head? = some c → p c = false) : l.dropWhile p = l := by
  cases l with
  | nil => rfl
  | cons a cs =>
    rw [List.dropWhile_cons, if_neg (by
      rw [h a (List.head?_cons)]
      exact fun hcon => nomatch hcon)]

theorem dashStrip_mem (l : Str) : ∀ c ∈ dashStrip l, c ∈ l := by
  intro c hc
  unfold dashStrip at hc
  rw [List.mem_reverse] at hc
  have h1 := List.dropWhile_subset (l := (l.dropWhile
    (fun c => c = '-')).reverse) (fun c => c = '-') hc
  rw [List.mem_reverse] at h1
  exact List.dropWhile_subset (fun c => c = '-') h1

theorem prefix_head? {α : Type} (l1 l2 : List α) (h : l1 <+: l2)
    (hne : ¬ l1 = []) : l2.head? = l1.head? := by
  obtain ⟨t, rfl⟩ := h
  cases l1 with
  | nil => exact absurd rfl hne
  | cons a l => rfl

theorem dashStrip_head (l : Str) : ¬ (dashStrip l).head? = some '-' := by
  intro h
  unfold dashStrip at h
  set A := l.dropWhile (fun c => c = '-') with hA
  set B := A.reverse.dropWhile (fun c => c = '-') with hB
  have hsuf : B <:+ A.reverse := List.dropWhile_suffix _
  have hpre : B.reverse <+: A := by
    have h2 := List.reverse_prefix.mpr hsuf
    rw [List.reverse_reverse] at h2
    exact h2
  by_cases hnil : B.reverse = []
  · rw [hnil] at h
    cases h
  · have h3 := prefix_head? _ _ hpre hnil
    rw [← h3] at h
    cases hAc : A with
    | nil =>
      rw [hAc] at h
      cases h
    | cons a t =>
      rw [hAc, List.head?_cons, Option.some_inj] at h
      have h4 := dropWhile_head_false l t a (hA ▸ hAc)
      rw [h] at h4
      simp at h4

theorem dashStrip_last (l : Str) : ¬ (dashStrip l).getLast? = some '-' := by
  intro h
  unfold dashStrip at h
  rw [List.getLast?_reverse] at h
  cases hBc : (l.dropWhile (fun c => c = '-')).reverse.dropWhile
      (fun c => c = '-') with
  | nil =>
    rw [hBc] at h
    cases h
  | cons a t =>
    rw [hBc, List.head?_cons, Option.some_inj] at h
    have h4 := dropWhile_head_false _ t a hBc
    rw [h] at h4
    simp at h4

theorem noDD_flip : flip noDD = noDD := by
  funext a b
  unfold flip noDD
  rw [eq_iff_iff]
  constructor
  · intro h hcon
    exact h ⟨hcon.2, hcon.1⟩
  · intro h hcon
    exact h ⟨hcon.2, hcon.1⟩

theorem dashStrip_chain (l : Str) (h : List.Chain' noDD l) :
    List.Chain' noDD (dashStrip l) := by
  unfold dashStrip
  have h1 : List.Chain' noDD (l.dropWhile (fun c => c = '-')) :=
    h.suffix (List.dropWhile_suffix _)
  have h2 : List.Chain' noDD (l.dropWhile (fun c => c = '-')).reverse := by
    rw [List.chain'_reverse, noDD_flip]
    exact h1
  have h3 := h2.suffix (List.dropWhile_suffix (fun c => c = '-'))
  rw [List.chain'_reverse, noDD_flip]
  exact h3

theorem dashStrip_id (l : Str) (hh : ¬ l.head? = some '-')
    (hl : ¬ l.getLast? = some '-') : dashStrip l = l := by
  unfold dashStrip
  rw [dropWhile_eq_self_of_head (p := fun c => c = '-') l ?_]
  · rw [dropWhile_eq_self_of_head (p := fun c => c = '-') l.reverse ?_]
    · exact List.reverse_reverse l
    · intro c hc
      rw [List.head?_reverse] at hc
      cases hc2 : decide (c = '-')
      · exact hc2
      · rw [decide_eq_true_eq] at hc2
        exact absurd (hc2 ▸ hc) hl
  · intro c hc
    cases hc2 : decide (c = '-')
    · exact hc2
    · rw [decide_eq_true_eq] at hc2
      exact absurd (hc2 ▸ hc) hh

theorem char_toNat_le_of_le {a b : Char} (h : a ≤ b) : a.toNat ≤ b.toNat := by
  rw [Char.le_def, UInt32.le_def, BitVec.le_def] at h
  exact h

theorem slugAllowed_ascii (c : Char) (h : slugAllowed c = true) :
    c.toNat < 128 := by
  unfold slugAllowed isDigitCh at h
  simp only [Bool.or_eq_true, decide_eq_true_eq] at h
  rcases h with ⟨-, h2⟩ | ⟨-, h2⟩ | ⟨-, h2⟩ | rfl | rfl
  · have h3 := char_toNat_le_of_le h2
    have hz : ('z').toNat = 122 := by decide
    omega
  · have h3 := char_toNat_le_of_le h2
    have hz : ('Z').toNat = 90 := by decide
    omega
  · have h3 := char_toNat_le_of_le h2
    have hz : ('9').toNat = 57 := by decide
    omega
  · decide
  · decide

theorem slugAllowed_ne (c d : Char) (h : slugAllowed c = true)
    (hd : slugAllowed d = false) : ¬ c = d := by
  intro hcd
  rw [hcd, hd] at h
  cases h

theorem slug_chars (s : Str) : ∀ c ∈ pySlugify s, slugAllowed c = true := by
  intro c hc
  unfold pySlugify at hc
  have h1 := dashStrip_mem _ c hc
  unfold dashCollapse at h1
  have h2 := dashCollapseAux_mem false _ c h1
  unfold mapDisallowed at h2
  rw [List.mem_map] at h2
  obtain ⟨a, -, ha⟩ := h2
  by_cases hall : slugAllowed a = true
  · rw [if_pos hall] at ha
    rw [← ha]
    exact hall
  · rw [if_neg hall] at ha
    rw [← ha]
    decide

theorem slug_chain (s : Str) : List.Chain' noDD (pySlugify s) := by
  unfold pySlugify dashCollapse
  exact dashStrip_chain _ (dashCollapseAux_chain _ false).1

theorem slug_head (s : Str) : ¬ (pySlugify s).head? = some '-' :=
  dashStrip_head _

theorem slug_last (s : Str) : ¬ (pySlugify s).getLast? = some '-' :=
  dashStrip_last _

theorem slug_id (t : Str) (hall : ∀ c ∈ t, slugAllowed c = true)
    (hchain : List.Chain' noDD t) (hh : ¬ t.head? = some '-')
    (hl : ¬ t.getLast? = some '-') : pySlugify t = t := by
  have e1 : slugUserRepl t = t := by
    unfold slugUserRepl
    rw [chReplace_id '_' '-' t
        (fun c hc => slugAllowed_ne c '_' (hall c hc) (by decide)),
      chReplace_id '/' '-' t
        (fun c hc => slugAllowed_ne c '/' (hall c hc) (by decide)),
      chReplace_id backslashCh '-' t
        (fun c hc => slugAllowed_ne c backslashCh (hall c hc) (by decide))]
  have e2 : quotePre t = t :=
    quotePreAux_id false t
      (fun c hc => slugAllowed_ne c quoteCh (hall c hc) (by decide))
  have e3 : asciiClean t = t := by
    unfold asciiClean
    refine List.filter_eq_self.mpr ?_
    intro c hc
    have h2 := slugAllowed_ascii c (hall c hc)
    simpa using h2
  have e4 : quotePost t = t := by
    unfold quotePost
    refine List.filter_eq_self.mpr ?_
    intro c hc
    have h2 := slugAllowed_ne c quoteCh (hall c hc) (by decide)
    simpa using h2
  have e5 : numbersClean t = t :=
    numbersCleanAux_id none t
      (fun c hc => slugAllowed_ne c ',' (hall c hc) (by decide))
  have e6 : mapDisallowed t = t := by
    unfold mapDisallowed
    exact map_id_of _ _ (fun c hc => by rw [if_pos (hall c hc)])
  have e7 : dashCollapse t = t :=
    dashCollapseAux_id t false hchain (fun hcon => nomatch hcon)
  have e8 : dashStrip t = t := dashStrip_id t hh hl
  unfold pySlugify
  rw [e1, e2, e3, e4, e5, e6, e7, e8]

theorem splitSlash_subset (s : Str) : ∀ w ∈ splitSlash s, ∀ c ∈ w, c ∈ s := by
  induction s with
  | nil =>
    intro w hw c hc
    unfold splitSlash at hw
    rw [List.mem_singleton] at hw
    subst hw
    cases hc
  | cons a rest ih =>
    intro w hw c hc
    unfold splitSlash at hw
    by_cases ha : a = '/'
    · rw [if_pos ha] at hw
      rw [List.mem_cons] at hw
      rcases hw with rfl | hw
      · cases hc
      · exact List.mem_cons_of_mem a (ih w hw c hc)
    · rw [if_neg ha] at hw
      rcases hrec : splitSlash rest with _ | ⟨w2, ws⟩
      · rw [hrec] at hw
        rw [List.mem_singleton] at hw
        subst hw
        rw [List.mem_singleton] at hc
        subst hc
        exact List.mem_cons_self c rest
      · rw [hrec] at hw
        rw [List.mem_cons] at hw
        rcases hw with rfl | hw
        · rw [List.mem_cons] at hc
          rcases hc with rfl | hc
          · exact List.mem_cons_self c rest
          · refine List.mem_cons_of_mem a (ih w2 ?_ c hc)
            rw [hrec]
            exact List.mem_cons_self w2 ws
        · refine List.mem_cons_of_mem a (ih w ?_ c hc)
          rw [hrec]
          exact List.mem_cons_of_mem w2 hw

theorem splitSlash_no_slash (s : Str) : ∀ w ∈ splitSlash s, ¬ '/' ∈ w := by
  induction s with
  | nil =>
    intro w hw
    unfold splitSlash at hw
    rw [List.mem_singleton] at hw
    subst hw
    intro hc
    cases hc
  | cons a rest ih =>
    intro w hw
    unfold splitSlash at hw
    by_cases ha : a = '/'
    · rw [if_pos ha] at hw
      rw [List.mem_cons] at hw
      rcases hw with rfl | hw
      · intro hc
        cases hc
      · exact ih w hw
    · rw [if_neg ha] at hw
      rcases hrec : splitSlash rest with _ | ⟨w2, ws⟩
      · rw [hrec] at hw
        rw [List.mem_singleton] at hw
        subst hw
        intro hc
        rw [List.mem_singleton] at hc
        exact ha hc.symm
      · rw [hrec] at hw
        rw [List.mem_cons] at hw
        rcases hw with rfl | hw
        · intro hc
          rw [List.mem_cons] at hc
          rcases hc with hc | hc
          · exact ha hc.symm
          · refine ih w2 ?_ hc
            rw [hrec]
            exact List.mem_cons_self w2 ws
        · refine ih w ?_
          rw [hrec]
          exact List.mem_cons_of_mem w2 hw

theorem splitSlash_eq_single (y : Str) (h : ¬ '/' ∈ y) :
    splitSlash y = [y] := by
  induction y with
  | nil => rfl
  | cons a rest ih =>
    unfold splitSlash
    rw [if_neg (show ¬ a = '/' from fun ha => h (by
      rw [← ha]
      exact List.mem_cons_self a rest))]
    rw [ih (fun hc => h (List.mem_cons_of_mem a hc))]

theorem pyName_subset (s : Str) : ∀ c ∈ pyName s, c ∈ s := by
  intro c hc
  unfold pyName at hc
  cases hlast : (pySegs s).getLast? with
  | none =>
    rw [hlast] at hc
    cases hc
  | some w =>
    rw [hlast] at hc
    have hw : w ∈ pySegs s := List.mem_of_getLast?_eq_some hlast
    unfold pySegs at hw
    exact splitSlash_subset s w (List.mem_of_mem_filter hw) c hc

theorem pyName_no_slash (s : Str) : ¬ '/' ∈ pyName s := by
  unfold pyName
  cases hlast : (pySegs s).getLast? with
  | none =>
    intro hc
    cases hc
  | some w =>
    have hw : w ∈ pySegs s := List.mem_of_getLast?_eq_some hlast
    unfold pySegs at hw
    exact splitSlash_no_slash s w (List.mem_of_mem_filter hw)

theorem splitExt_decomp (name : Str) :
    name = (splitExt name).1 ++ (splitExt name).2
      ∧ ((splitExt name).2 = []
          ∨ ∃ u, (splitExt name).2 = '.' :: u ∧ ¬ u = [] ∧ ¬ '.' ∈ u) := by
  unfold splitExt
  split
  · exact ⟨by simp, Or.inl rfl⟩
  · rename_i v1 v2 hd rest2 hdrop
    split
    · exact ⟨by simp, Or.inl rfl⟩
    · split
      · exact ⟨by simp, Or.inl rfl⟩
      · rename_i hrest2 hafter
        have hdecomp : name.reverse
            = name.reverse.takeWhile (fun c => ¬ c = '.') ++ hd :: rest2 := by
          conv_lhs => rw [← List.takeWhile_append_dropWhile
            (fun c => ¬ c = '.') name.reverse]
          rw [hdrop]
        have hdd : hd = '.' := by
          have h2 := dropWhile_head_false name.reverse rest2 hd hdrop
          simpa using h2
        subst hdd
        have hname : name = rest2.reverse
            ++ '.' :: (name.reverse.takeWhile (fun c => ¬ c = '.')).reverse := by
          have h3 := congrArg List.reverse hdecomp
          rw [List.reverse_reverse, List.reverse_append,
            List.reverse_cons, List.append_assoc] at h3
          simpa using h3
        refine ⟨by simpa using hname,
          Or.inr ⟨(name.reverse.takeWhile (fun c => ¬ c = '.')).reverse,
            rfl, ?_, ?_⟩⟩
        · simpa using hafter
        · intro hc
          rw [List.mem_reverse] at hc
          have h4 := List.mem_takeWhile_imp hc
          simp at h4

theorem pyRoot_eq_none (y : Str) (hhd : ¬ y.head? = some '/') :
    pyRoot y = none := by
  unfold pyRoot
  split
  · exact absurd rfl hhd
  · exact absurd rfl hhd
  · exact absurd rfl hhd
  · rfl

theorem pyParts_single (y : Str) (hne : ¬ y = []) (hdot : ¬ y = ['.'])
    (hs : ¬ '/' ∈ y) : pyParts y = [y] ∧ pyName y = y := by
  have hroot : pyRoot y = none := by
    refine pyRoot_eq_none y ?_
    intro hhd
    cases y with
    | nil => cases hhd
    | cons a rest =>
      rw [List.head?_cons, Option.some_inj] at hhd
      exact hs (hhd ▸ List.mem_cons_self a rest)
  have hsegs : pySegs y = [y] := by
    unfold pySegs
    rw [splitSlash_eq_single y hs]
    rw [List.filter_cons, List.filter_nil]
    rw [if_pos (by simp [hne, hdot])]
  refine ⟨?_, ?_⟩
  · unfold pyParts
    rw [hroot, hsegs]
    rfl
  · unfold pyName
    rw [hsegs]
    rfl

/-- Claim C9 counterexample: `sanitize_filename` is not idempotent — on
`" .c d"` the first pass slugifies the stem `" "` to nothing and keeps the
suffix `".c d"` verbatim, and the second pass re-parses `".c d"` as a bare
stem and slugifies its space — and a null byte sitting in the extension is
preserved verbatim in the output. -/
theorem claim_C9_counterexample :
    ¬ sanitize_filename (sanitize_filename ((" .c d").data))
        = sanitize_filename ((" .c d").data)
      ∧ nulCh ∈ sanitize_filename (("a.b").data ++ [nulCh]) := by
  decide

/-- Claim C9 (amended): for every input, `sanitize_filename` never emits the
path separator `/`, and never emits a null byte unless the input itself
contains one (a null in the extension is preserved verbatim); it is
idempotent on every input whose parsed extension is nonempty and whose
slugified stem is nonempty.  Idempotence and the unconditional null-byte
guarantee of the original claim fail (see the counterexample). -/
theorem claim_C9 (s : Str) :
    (¬ '/' ∈ sanitize_filename s)
      ∧ (¬ nulCh ∈ s → ¬ nulCh ∈ sanitize_filename s)
      ∧ (¬ pySuffix s = [] → ¬ pySlugify (sfStemChoice s) = [] →
          sanitize_filename (sanitize_filename s) = sanitize_filename s) := by
  refine ⟨?_, ?_, ?_⟩
  · intro hmem
    unfold sanitize_filename at hmem
    rw [List.mem_append] at hmem
    rcases hmem with hmem | hmem
    · exact absurd (slug_chars _ _ hmem) (by decide)
    · apply pyName_no_slash s
      rw [(splitExt_decomp (pyName s)).1, List.mem_append]
      exact Or.inr hmem
  · intro hnul hmem
    unfold sanitize_filename at hmem
    rw [List.mem_append] at hmem
    rcases hmem with hmem | hmem
    · exact absurd (slug_chars _ _ hmem) (by decide)
    · apply hnul
      apply pyName_subset s
      rw [(splitExt_decomp (pyName s)).1, List.mem_append]
      exact Or.inr hmem
  · intro hsfx hg
    rcases (splitExt_decomp (pyName s)).2 with hnil | ⟨u, hu, hune, hudot⟩
    · exact absurd hnil hsfx
    · have hgch := slug_chars (sfStemChoice s)
      have hgchain := slug_chain (sfStemChoice s)
      have hgh := slug_head (sfStemChoice s)
      have hgl := slug_last (sfStemChoice s)
      set g := pySlugify (sfStemChoice s) with hgdef
      have hy : sanitize_filename s = g ++ '.' :: u := by
        unfold sanitize_filename
        rw [show pySuffix s = '.' :: u from hu, hgdef]
      clear_value g
      have hnoslash : ¬ '/' ∈ g ++ '.' :: u := by
        intro hm
        rw [List.mem_append] at hm
        rcases hm with hm | hm
        · exact absurd (hgch _ hm) (by decide)
        · rw [List.mem_cons] at hm
          rcases hm with hm | hm
          · exact absurd hm (by decide)
          · apply pyName_no_slash s
            rw [(splitExt_decomp (pyName s)).1, List.mem_append]
            refine Or.inr ?_
            rw [show (splitExt (pyName s)).2 = '.' :: u from hu]
            exact List.mem_cons_of_mem _ hm
      have hyne : ¬ (g ++ '.' :: u) = [] := by
        intro h
        have h2 := congrArg List.length h
        rw [List.length_append] at h2
        simp at h2
      have hydot : ¬ (g ++ '.' :: u) = ['.'] := by
        intro h
        have hglen : 0 < g.length := List.length_pos.mpr hg
        have h2 := congrArg List.length h
        rw [List.length_append, List.length_cons] at h2
        simp at h2
        omega
      obtain ⟨hparts, hname⟩ :=
        pyParts_single (g ++ '.' :: u) hyne hydot hnoslash
      have hsplit : splitExt (g ++ '.' :: u) = (g, '.' :: u) :=
        splitExt_append_ext g u hg hune hudot
      rw [hy]
      have hstemch : sfStemChoice (g ++ '.' :: u) = g := by
        unfold sfStemChoice
        rw [hparts, if_neg (by simp)]
        unfold pyStem
        rw [hname, hsplit]
      have hsfx2 : pySuffix (g ++ '.' :: u) = '.' :: u := by
        unfold pySuffix
        rw [hname, hsplit]
      unfold sanitize_filename
      rw [hstemch, hsfx2, slug_id g hgch hgchain hgh hgl]

/-- C9 witness: on `"My File.txt"` the sanitizer emits no separator and no
null byte and is idempotent. -/
theorem claim_C9_witness :
    (¬ '/' ∈ sanitize_filename (("My File.txt").data))
      ∧ (¬ nulCh ∈ sanitize_filename (("My File.txt").data))
      ∧ sanitize_filename (sanitize_filename (("My File.txt").data))
          = sanitize_filename (("My File.txt").data) :=
  ⟨(claim_C9 _).1,
   (claim_C9 _).2.1 (by decide),
   (claim_C9 _).2.2 (by decide) (by decide)⟩

/-! ## Claim C4: unresolved image references -/

/-- The per-segment rewrite of the reference block: text is only subject to
the duplicate-path cleanup; an image reference goes through the full
per-reference action. -/
def rwSeg (imap : List (Str × Str)) (doc : Str) (sg : MdSeg) : MdSeg :=
  match sg with
  | .text s => .text (dupFix s)
  | .img alt r => (rewriteRef imap doc alt r).1

/-- The warnings a segment contributes. -/
def rwWarn (imap : List (Str × Str)) (doc : Str) (sg : MdSeg) : List Str :=
  match sg with
  | .text _ => []
  | .img alt r => (rewriteRef imap doc alt r).2

theorem fmr_fold (imap : List (Str × Str)) (doc : Str) (segs : List MdSeg) :
    ∀ acc : List MdSeg × List Str,
      segs.foldl (fun acc sg =>
        match sg with
        | .text s => (acc.1 ++ [.text (dupFix s)], acc.2)
        | .img alt r =>
          let (sg2, w) := rewriteRef imap doc alt r
          (acc.1 ++ [sg2], acc.2 ++ w)) acc
      = (acc.1 ++ segs.map (rwSeg imap doc),
         acc.2 ++ (segs.map (rwWarn imap doc)).flatten) := by
  induction segs with
  | nil => intro acc; simp
  | cons sg rest ih =>
    intro acc
    rw [List.foldl_cons, ih]
    cases sg with
    | text s => simp [rwSeg, rwWarn]
    | img alt r =>
      rcases hrw : rewriteRef imap doc alt r with ⟨sg2, w⟩
      simp [rwSeg, rwWarn, hrw]

theorem fmr_eq (imap : List (Str × Str)) (doc : Str) (segs : List MdSeg)
    (hne : ¬ imap = []) :
    format_markdown_refs imap doc segs
      = (segs.map (rwSeg imap doc),
         (segs.map (rwWarn imap doc)).flatten) := by
  unfold format_markdown_refs
  rw [if_neg hne, fmr_fold]
  simp

/-- Claim C4 counterexample: with the nonempty map `{foo: image_1.png}` the
reference `/images/b.png` matches no strategy, yet the output reference
differs from the input one — the absolute-path fixup strips its leading
slash — so an unmatched reference is not always left unchanged. -/
theorem claim_C4_counterexample :
    refStrategies [((("foo").data), (("image_1.png").data))]
        (exactPass [((("foo").data), (("image_1.png").data))]
          (("Deck.pptx").data) (("/images/b.png").data)) = none
      ∧ ¬ (format_markdown_refs [((("foo").data), (("image_1.png").data))]
            (("Deck.pptx").data)
            [MdSeg.img (("a").data) (("/images/b.png").data)]).1
          = [MdSeg.img (("a").data) (("/images/b.png").data)] := by
  decide

/-- Claim C4 (amended): when the name-variant map is nonempty and an image
reference is matched neither by the exact pass nor by any strategy of the
variations loop, the rewriter emits the unresolved-reference diagnostic
naming the reference, and the output reference is exactly the input one
passed through the two mechanical fixups (leading `/images/` slash strip and
duplicate-path cleanup) — never a guessed map path.  The original claim's
"leaves the reference text unchanged" fails because those fixups still
apply (see the counterexample). -/
theorem claim_C4 (imap : List (Str × Str)) (doc : Str) (segs : List MdSeg)
    (i : Nat) (alt r : Str) (hne : ¬ imap = [])
    (hseg : segs[i]? = some (MdSeg.img alt r))
    (hex : exactPass imap doc r = r)
    (hstrat : refStrategies imap r = none) :
    (format_markdown_refs imap doc segs).1[i]?
        = some (MdSeg.img (dupFix alt) (dupFix (absFix r)))
      ∧ r ∈ (format_markdown_refs imap doc segs).2 := by
  have hrw : rewriteRef imap doc alt r
      = (MdSeg.img (dupFix alt) (dupFix (absFix r)), [r]) := by
    unfold rewriteRef
    simp only [hex, hstrat]
  rw [fmr_eq imap doc segs hne]
  constructor
  · rw [List.getElem?_map, hseg]
    simp [rwSeg, hrw]
  · rw [List.mem_flatten]
    refine ⟨[r], ?_, List.mem_singleton_self r⟩
    rw [List.mem_map]
    exact ⟨MdSeg.img alt r, List.getElem?_mem hseg, by simp [rwWarn, hrw]⟩

/-- C4 witness: the unmatched reference `/images/b.png` yields the fixed-up
reference in place and the diagnostic naming it. -/
theorem claim_C4_witness :
    (format_markdown_refs [((("foo").data), (("image_1.png").data))]
        (("Deck.pptx").data)
        [MdSeg.img (("a").data) (("/images/b.png").data)]).1[0]?
        = some (MdSeg.img (dupFix (("a").data))
            (dupFix (absFix (("/images/b.png").data))))
      ∧ (("/images/b.png").data)
          ∈ (format_markdown_refs [((("foo").data), (("image_1.png").data))]
              (("Deck.pptx").data)
              [MdSeg.img (("a").data) (("/images/b.png").data)]).2 :=
  claim_C4 _ _ _ 0 _ _ (by decide) (by decide) (by decide) (by decide)

/-! ## Claim C5: totality of navigation synthesis

The amended claim: under freedom from key collisions the produced tree
holds every input entry exactly once as a leaf.  The collision conditions
name, per entry, the slot it occupies: the raw group key (the part before
the first `" - "` when nonempty), the sanitized top-level key, and the
sanitized leaf title inside a group. -/

/-- The raw group key of an entry: the part of its title before the first
`" - "`, when that part is nonempty. -/
def grpKey (e : Str × Str) : Option Str :=
  match splitDash e.2 with
  | some pr => if pr.1 = [] then none else some pr.1
  | none => none

/-- The title under which an entry's leaf is emitted: the part after the
first `" - "` for grouped entries, the whole title otherwise. -/
def navLeafTitle (t : Str) : Str :=
  match splitDash t with
  | some pr => if pr.1 = [] then t else pr.2
  | none => t

/-- The title key the group loop computes (`title_parts[1] if len > 1 else
title`), before distinguishing empty group keys. -/
def rawLeafTitle (t : Str) : Str :=
  match splitDash t with
  | some pr => pr.2
  | none => t

/-- The leaf pair an entry contributes to the navigation. -/
def navEntryKV (e : Str × Str) : Str × Str :=
  (sanitize_title (navLeafTitle e.2), pathStr e.1)

/-- The entries that go directly into the top-level dict. -/
def topEntries (files : List (Str × Str)) : List (Str × Str) :=
  files.filter (fun e => (grpKey e).isNone)

/-- The sanitized top-level keys, in input order. -/
def topKeys (files : List (Str × Str)) : List Str :=
  (topEntries files).map (fun e => sanitize_title e.2)

/-- The raw group keys in order of first appearance (Python dict insertion
order of `prefix_groups`). -/
def grpKeys (files : List (Str × Str)) : List Str :=
  firstOccList (files.filterMap grpKey)

/-- The entries of one group, in input order. -/
def groupEntries (files : List (Str × Str)) (p : Str) : List (Str × Str) :=
  files.filter (fun e => grpKey e = some p)

/-- The top-level dict `navPass1` builds, when its keys do not collide. -/
def topsModel (files : List (Str × Str)) : List (Str × Str) :=
  (topEntries files).map (fun e => (sanitize_title e.2, pathStr e.1))

/-- The `prefix_groups` dict `navPass1` builds. -/
def groupsModel (files : List (Str × Str)) :
    List (Str × List (Str × Str)) :=
  (grpKeys files).map (fun p => (p, groupEntries files p))

theorem dictGet?_eq_none_of_not_mem {α : Type} [DecidableEq α] {β : Type}
    (d : List (α × β)) (k : α) (h : ¬ k ∈ d.map Prod.fst) :
    dictGet? d k = none := by
  unfold dictGet?
  rw [List.find?_eq_none.mpr]
  intro e he hek
  exact h (by
    rw [List.mem_map]
    exact ⟨e, he, by simpa using hek⟩)

theorem dictSet_append_of_not_mem {α : Type} [DecidableEq α] {β : Type}
    (d : List (α × β)) (k : α) (v : β) (h : ¬ k ∈ d.map Prod.fst) :
    dictSet d k v = d ++ [(k, v)] := by
  unfold dictSet
  rw [if_neg]
  rw [List.find?_eq_none.mpr]
  · simp
  · intro e he hek
    exact h (by
      rw [List.mem_map]
      exact ⟨e, he, by simpa using hek⟩)

theorem dictGet?_map_of_mem {α : Type} [DecidableEq α] {β : Type}
    (ks : List α) (g : α → β) (p : α) (hp : p ∈ ks) :
    dictGet? (ks.map (fun q => (q, g q))) p = some (g p) := by
  induction ks with
  | nil => cases hp
  | cons a as ih =>
    rw [List.mem_cons] at hp
    by_cases ha : a = p
    · subst ha
      unfold dictGet?
      rw [List.map_cons, List.find?_cons_of_pos _ (by simp)]
    · unfold dictGet?
      rw [List.map_cons, List.find?_cons_of_neg _ (by simp [ha])]
      rcases hp with rfl | hp
      · exact absurd rfl ha
      · exact ih hp

theorem dictGet?_map_of_not_mem {α : Type} [DecidableEq α] {β : Type}
    (ks : List α) (g : α → β) (p : α) (hp : ¬ p ∈ ks) :
    dictGet? (ks.map (fun q => (q, g q))) p = none := by
  apply dictGet?_eq_none_of_not_mem
  rw [List.map_map]
  intro hmem
  rw [List.mem_map] at hmem
  obtain ⟨q, hq, hqe⟩ := hmem
  exact hp ((show q = p from hqe) ▸ hq)

theorem dictSet_map_of_mem {α : Type} [DecidableEq α] {β : Type}
    (ks : List α) (g : α → β) (p : α) (v : β) (hp : p ∈ ks) :
    dictSet (ks.map (fun q => (q, g q))) p v
      = ks.map (fun q => (q, if q = p then v else g q)) := by
  unfold dictSet
  rw [if_pos]
  · rw [List.map_map]
    apply List.map_congr_left
    intro q _
    by_cases hq : q = p
    · subst hq
      simp
    · simp [hq]
  · rw [List.find?_isSome]
    exact ⟨(p, g p), List.mem_map_of_mem _ hp, by simp⟩

theorem nodup_snoc {α : Type} (l : List α) (a : α)
    (h : (l ++ [a]).Nodup) : ¬ a ∈ l ∧ l.Nodup := by
  rw [List.nodup_append] at h
  exact ⟨fun hmem => h.2.2 hmem (List.mem_singleton_self a), h.1⟩

theorem foldl_dictSet_append {α κ β : Type} [DecidableEq κ]
    (key : α → κ) (val : α → β) :
    ∀ (l : List α) (acc : List (κ × β)),
      (acc.map Prod.fst ++ l.map key).Nodup →
      l.foldl (fun d e => dictSet d (key e) (val e)) acc
        = acc ++ l.map (fun e => (key e, val e)) := by
  intro l
  induction l with
  | nil => intro acc _; simp
  | cons e es ih =>
    intro acc hnd
    rw [List.map_cons, List.append_cons] at hnd
    have hnd2 : ((acc.map Prod.fst ++ [key e]) ++ es.map key).Nodup := hnd
    have hk : ¬ key e ∈ acc.map Prod.fst := by
      have h3 := (List.nodup_append.mp
        ((List.nodup_append.mp hnd2).1)).2.2
      intro hmem
      exact h3 hmem (List.mem_singleton_self _)
    rw [List.foldl_cons, dictSet_append_of_not_mem _ _ _ hk,
      ih (acc ++ [(key e, val e)]) (by simpa using hnd2)]
    simp

theorem topEntries_snoc (fs : List (Str × Str)) (e : Str × Str) :
    topEntries (fs ++ [e])
      = topEntries fs ++ if (grpKey e).isNone then [e] else [] := by
  unfold topEntries
  rw [List.filter_append]
  congr 1
  rcases h : grpKey e with _ | p <;> simp [List.filter, h]

theorem topKeys_snoc (fs : List (Str × Str)) (e : Str × Str) :
    topKeys (fs ++ [e])
      = topKeys fs
        ++ if (grpKey e).isNone then [sanitize_title e.2] else [] := by
  unfold topKeys
  rw [topEntries_snoc, List.map_append]
  congr 1
  split <;> simp

theorem topsModel_snoc (fs : List (Str × Str)) (e : Str × Str) :
    topsModel (fs ++ [e])
      = topsModel fs
        ++ if (grpKey e).isNone
           then [(sanitize_title e.2, pathStr e.1)] else [] := by
  unfold topsModel
  rw [topEntries_snoc, List.map_append]
  congr 1
  split <;> simp

theorem groupEntries_snoc (fs : List (Str × Str)) (e : Str × Str) (p : Str) :
    groupEntries (fs ++ [e]) p
      = groupEntries fs p ++ if grpKey e = some p then [e] else [] := by
  unfold groupEntries
  rw [List.filter_append]
  congr 1
  by_cases h : grpKey e = some p <;> simp [List.filter, h]

theorem grpKeys_snoc_none (fs : List (Str × Str)) (e : Str × Str)
    (h : grpKey e = none) : grpKeys (fs ++ [e]) = grpKeys fs := by
  unfold grpKeys
  rw [List.filterMap_append]
  congr 1
  rw [List.append_right_eq_self]
  simp [List.filterMap, h]

theorem grpKeys_snoc_mem (fs : List (Str × Str)) (e : Str × Str) (p : Str)
    (h : grpKey e = some p) (hmem : p ∈ grpKeys fs) :
    grpKeys (fs ++ [e]) = grpKeys fs := by
  unfold grpKeys at hmem ⊢
  rw [List.filterMap_append,
    show List.filterMap grpKey [e] = [p] by simp [List.filterMap, h],
    firstOccList_append_singleton]
  split
  · rfl
  · rename_i h2
    exact absurd hmem h2

theorem grpKeys_snoc_new (fs : List (Str × Str)) (e : Str × Str) (p : Str)
    (h : grpKey e = some p) (hmem : ¬ p ∈ grpKeys fs) :
    grpKeys (fs ++ [e]) = grpKeys fs ++ [p] := by
  unfold grpKeys at hmem ⊢
  rw [List.filterMap_append,
    show List.filterMap grpKey [e] = [p] by simp [List.filterMap, h],
    firstOccList_append_singleton]
  split
  · rename_i h2
    exact absurd h2 hmem
  · rfl

theorem groupEntries_eq_nil (fs : List (Str × Str)) (p : Str)
    (h : ¬ p ∈ grpKeys fs) : groupEntries fs p = [] := by
  unfold groupEntries
  rw [List.filter_eq_nil_iff]
  intro e he hcontra
  apply h
  unfold grpKeys
  rw [firstOccList_mem, List.mem_filterMap]
  exact ⟨e, he, by simpa using hcontra⟩

theorem topsModel_keys (fs : List (Str × Str)) :
    (topsModel fs).map Prod.fst = topKeys fs := by
  unfold topsModel topKeys
  rw [List.map_map]
  rfl

theorem navPass1_eq (files : List (Str × Str))
    (hnd : (topKeys files).Nodup) :
    navPass1 files = (topsModel files, groupsModel files) := by
  induction files using List.reverseRecOn with
  | nil => rfl
  | append_singleton fs e ih =>
    have hstep : navPass1 (fs ++ [e])
        = (fun st (e : Str × Str) =>
            match splitDash e.2 with
            | some pr =>
              if pr.1 = [] then
                (dictSet st.1 (sanitize_title e.2) (pathStr e.1), st.2)
              else
                (st.1,
                 match dictGet? st.2 pr.1 with
                 | some l => dictSet st.2 pr.1 (l ++ [e])
                 | none => st.2 ++ [(pr.1, [e])])
            | none =>
              (dictSet st.1 (sanitize_title e.2) (pathStr e.1), st.2))
          (navPass1 fs) e := by
      unfold navPass1
      rw [List.foldl_append, List.foldl_cons, List.foldl_nil]
    rcases hsd : splitDash e.2 with _ | pr
    · have hgk : grpKey e = none := by unfold grpKey; rw [hsd]
      have hndfs : (topKeys fs).Nodup := by
        rw [topKeys_snoc, hgk] at hnd
        exact (nodup_snoc _ _ (by simpa using hnd)).2
      have hfresh : ¬ sanitize_title e.2 ∈ topKeys fs := by
        rw [topKeys_snoc, hgk] at hnd
        exact (nodup_snoc _ _ (by simpa using hnd)).1
      rw [hstep, ih hndfs]
      dsimp only
      rw [hsd]
      dsimp only
      rw [topsModel_snoc, hgk]
      have hgm : groupsModel (fs ++ [e]) = groupsModel fs := by
        unfold groupsModel
        rw [grpKeys_snoc_none fs e hgk]
        apply List.map_congr_left
        intro q _
        rw [groupEntries_snoc, hgk]
        simp
      rw [hgm, dictSet_append_of_not_mem _ _ _ (by rw [topsModel_keys]; exact hfresh)]
      simp
    · by_cases hpr : pr.1 = []
      · have hgk : grpKey e = none := by
          unfold grpKey
          rw [hsd]
          simp [hpr]
        have hndfs : (topKeys fs).Nodup := by
          rw [topKeys_snoc, hgk] at hnd
          exact (nodup_snoc _ _ (by simpa using hnd)).2
        have hfresh : ¬ sanitize_title e.2 ∈ topKeys fs := by
          rw [topKeys_snoc, hgk] at hnd
          exact (nodup_snoc _ _ (by simpa using hnd)).1
        rw [hstep, ih hndfs]
        dsimp only
        rw [hsd]
        dsimp only
        rw [if_pos hpr]
        rw [topsModel_snoc, hgk]
        have hgm : groupsModel (fs ++ [e]) = groupsModel fs := by
          unfold groupsModel
          rw [grpKeys_snoc_none fs e hgk]
          apply List.map_congr_left
          intro q _
          rw [groupEntries_snoc, hgk]
          simp
        rw [hgm, dictSet_append_of_not_mem _ _ _ (by rw [topsModel_keys]; exact hfresh)]
        simp
      · have hgk : grpKey e = some pr.1 := by
          unfold grpKey
          rw [hsd]
          simp [hpr]
        have hndfs : (topKeys fs).Nodup := by
          rw [topKeys_snoc, hgk] at hnd
          simpa using hnd
        have htm : topsModel (fs ++ [e]) = topsModel fs := by
          rw [topsModel_snoc, hgk]
          simp
        rw [hstep, ih hndfs]
        dsimp only
        rw [hsd]
        dsimp only
        rw [if_neg hpr, htm]
        by_cases hmem : pr.1 ∈ grpKeys fs
        · have hget : dictGet? (groupsModel fs) pr.1
              = some (groupEntries fs pr.1) :=
            dictGet?_map_of_mem _ _ _ hmem
          rw [hget]
          dsimp only
          unfold groupsModel
          rw [dictSet_map_of_mem _ _ _ _ hmem,
            grpKeys_snoc_mem fs e pr.1 hgk hmem]
          congr 1
          apply List.map_congr_left
          intro q hq
          rw [groupEntries_snoc, hgk]
          by_cases hqe : q = pr.1
          · subst hqe
            simp
          · rw [if_neg hqe,
              if_neg (show ¬ some pr.1 = some q by simpa using fun h => hqe h.symm)]
            simp
        · have hget : dictGet? (groupsModel fs) pr.1 = none :=
            dictGet?_map_of_not_mem _ _ _ hmem
          rw [hget]
          dsimp only
          unfold groupsModel
          rw [grpKeys_snoc_new fs e pr.1 hgk hmem, List.map_append]
          congr 1
          congr 1
          · apply List.map_congr_left
            intro q hq
            rw [groupEntries_snoc, hgk]
            have hqne : ¬ q = pr.1 := fun h => hmem (h ▸ hq)
            rw [if_neg (show ¬ some pr.1 = some q by simpa using fun h => hqne h.symm)]
            simp
          · rw [List.map_singleton, groupEntries_snoc, hgk,
              groupEntries_eq_nil fs pr.1 hmem]
            simp

theorem navLeafTitle_of_none (e : Str × Str) (h : grpKey e = none) :
    navLeafTitle e.2 = e.2 := by
  unfold grpKey at h
  unfold navLeafTitle
  rcases hsd : splitDash e.2 with _ | pr
  · rfl
  · rw [hsd] at h
    dsimp only at h
    dsimp only
    split at h
    · rename_i hpr
      rw [if_pos hpr]
    · cases h

theorem navLeafTitle_of_some (e : Str × Str) (p : Str)
    (h : grpKey e = some p) : navLeafTitle e.2 = rawLeafTitle e.2 := by
  unfold grpKey at h
  unfold navLeafTitle rawLeafTitle
  rcases hsd : splitDash e.2 with _ | pr
  · rfl
  · rw [hsd] at h
    dsimp only at h
    dsimp only
    split at h
    · cases h
    · rename_i hpr
      rw [if_neg hpr]

theorem mem_groupEntries_grpKey (fs : List (Str × Str)) (p : Str)
    (e : Str × Str) (he : e ∈ groupEntries fs p) : grpKey e = some p := by
  unfold groupEntries at he
  rw [List.mem_filter] at he
  simpa using he.2

/-- The inner group-dict loop of `navStructure`, as a standalone
definition (definitionally the fold the second loop runs per group). -/
def pnavOf (l : List (Str × Str)) : List (Str × Str) :=
  l.foldl (fun d e =>
    let leafT := match splitDash e.2 with
      | some pr => pr.2
      | none => e.2
    dictSet d (sanitize_title leafT) (pathStr e.1)) []

theorem navStructure_alt (files : List (Str × Str)) :
    navStructure files
      = (navPass1 files).2.foldl (fun ns g =>
          dictSet ns (sanitize_title g.1) (NavVal.group (pnavOf g.2)))
          ((navPass1 files).1.map (fun e => (e.1, NavVal.leaf e.2))) := rfl

/-- The inner group-dict loop, as a map, when its sanitized leaf keys do
not collide. -/
theorem pnavOf_eq (g : List (Str × Str))
    (hnd : (g.map (fun e => sanitize_title (rawLeafTitle e.2))).Nodup) :
    pnavOf g
      = g.map (fun e => (sanitize_title (rawLeafTitle e.2), pathStr e.1)) := by
  have h := foldl_dictSet_append
    (fun e : Str × Str => sanitize_title (rawLeafTitle e.2))
    (fun e : Str × Str => pathStr e.1) g [] (by simpa using hnd)
  calc pnavOf g
      = g.foldl (fun d e =>
          dictSet d (sanitize_title (rawLeafTitle e.2)) (pathStr e.1)) [] := rfl
    _ = _ := by simpa using h

/-- The second loop of `navStructure`, as an append, when the sanitized
group keys collide neither with each other nor with the existing keys. -/
theorem navFold_eq (gs : List (Str × List (Str × Str)))
    (acc : List (Str × NavVal))
    (hnd : (acc.map Prod.fst
      ++ gs.map (fun g => sanitize_title g.1)).Nodup) :
    gs.foldl (fun ns g =>
      dictSet ns (sanitize_title g.1) (NavVal.group (pnavOf g.2))) acc
      = acc ++ gs.map (fun g =>
          (sanitize_title g.1, NavVal.group (pnavOf g.2))) := by
  exact foldl_dictSet_append
    (fun g : Str × List (Str × Str) => sanitize_title g.1)
    (fun g : Str × List (Str × Str) => NavVal.group (pnavOf g.2)) gs acc hnd

set_option maxHeartbeats 1600000 in
/-- The navigation dict, under collision-freedom of its keys: the top-level
leaves in input order followed by the groups in first-appearance order,
each holding its members in input order. -/
theorem navStructure_eq (files : List (Str × Str))
    (h1 : (topKeys files ++ (grpKeys files).map sanitize_title).Nodup)
    (h2 : ∀ p ∈ grpKeys files,
      ((groupEntries files p).map
        (fun e => sanitize_title (navLeafTitle e.2))).Nodup) :
    navStructure files
      = (topsModel files).map (fun e => (e.1, NavVal.leaf e.2))
        ++ (grpKeys files).map (fun p =>
            (sanitize_title p,
             NavVal.group ((groupEntries files p).map navEntryKV))) := by
  have hndtop : (topKeys files).Nodup := (List.nodup_append.mp h1).1
  rw [navStructure_alt files, navPass1_eq files hndtop]
  dsimp only
  have hcond : (((topsModel files).map
        (fun e => (e.1, NavVal.leaf e.2))).map Prod.fst
      ++ (groupsModel files).map
        (fun g : Str × List (Str × Str) => sanitize_title g.1)).Nodup := by
    have e1 : ((topsModel files).map
          (fun e => (e.1, NavVal.leaf e.2))).map Prod.fst
        = topKeys files := by
      rw [List.map_map, ← topsModel_keys files]
      apply List.map_congr_left
      intro e _
      rfl
    have e2 : (groupsModel files).map
          (fun g : Str × List (Str × Str) => sanitize_title g.1)
        = (grpKeys files).map sanitize_title := by
      unfold groupsModel
      rw [List.map_map]
      apply List.map_congr_left
      intro p _
      rfl
    rw [e1, e2]
    exact h1
  rw [navFold_eq (groupsModel files)
    ((topsModel files).map (fun e => (e.1, NavVal.leaf e.2))) hcond]
  congr 1
  unfold groupsModel
  rw [List.map_map]
  apply List.map_congr_left
  intro p hp
  have hnd2 : ((groupEntries files p).map
      (fun e => sanitize_title (rawLeafTitle e.2))).Nodup := by
    have h3 := h2 p hp
    rw [List.map_congr_left (fun e he =>
      congrArg sanitize_title
        (navLeafTitle_of_some e p (mem_groupEntries_grpKey files p e he)))]
      at h3
    exact h3
  dsimp only [Function.comp]
  rw [pnavOf_eq (groupEntries files p) hnd2]
  congr 1
  congr 1
  apply List.map_congr_left
  intro e he
  unfold navEntryKV
  rw [navLeafTitle_of_some e p (mem_groupEntries_grpKey files p e he)]

theorem ordIns_perm {β : Type} (x : Str × β) (l : List (Str × β)) :
    (ordIns x l).Perm (x :: l) := by
  induction l with
  | nil => exact List.Perm.refl _
  | cons y ys ih =>
    unfold ordIns
    split
    · exact (ih.cons y).trans (List.Perm.swap x y ys)
    · exact List.Perm.refl _

theorem sortPairs_perm {β : Type} (l : List (Str × β)) :
    (sortPairs l).Perm l := by
  unfold sortPairs
  induction l with
  | nil => exact List.Perm.refl _
  | cons x xs ih =>
    rw [List.foldr_cons]
    exact (ordIns_perm x _).trans (ih.cons x)

theorem foldl_append_flatten {α β : Type} (step : List β → α → List β)
    (g : α → List β) (h : ∀ e acc, step acc e = acc ++ g e) :
    ∀ (l : List α) (acc : List β),
      l.foldl step acc = acc ++ (l.map g).flatten := by
  intro l
  induction l with
  | nil => intro acc; simp
  | cons e es ih =>
    intro acc
    rw [List.foldl_cons, h e acc, ih, List.map_cons, List.flatten_cons]
    simp

/-- The leaf pairs one navigation item contributes. -/
def navItemLeaves (it : NavItem) : List (Str × Str) :=
  match it with
  | .leaf t p => [(t, p)]
  | .group _ ch => ch

/-- The leaf pairs one dict value contributes after sorting. -/
def navValLeaves : Str × NavVal → List (Str × Str)
  | (k, .leaf p) => [(k, p)]
  | (_, .group g) => sortPairs g

theorem navLeaves_eq (nav : List NavItem) :
    navLeaves nav = (nav.map navItemLeaves).flatten := by
  unfold navLeaves
  rw [foldl_append_flatten _ navItemLeaves ?_ nav []]
  · simp
  · intro e acc
    cases e <;> rfl

theorem navLeaves_dict_to_nav (d : List (Str × NavVal)) :
    navLeaves (dict_to_nav d) = ((sortPairs d).map navValLeaves).flatten := by
  rw [navLeaves_eq]
  unfold dict_to_nav
  generalize sortPairs d = l
  induction l with
  | nil => rfl
  | cons x xs ih =>
    rcases x with ⟨k, v⟩
    cases v with
    | leaf p =>
      rw [List.filterMap_cons, List.map_cons, List.flatten_cons]
      dsimp only [navValLeaves]
      rw [ih]
      rfl
    | group g =>
      rw [List.filterMap_cons, List.map_cons, List.flatten_cons]
      dsimp only [navValLeaves]
      rcases hg : sortPairs g with _ | ⟨y, ys⟩
      · dsimp only
        rw [ih]
        rfl
      · dsimp only
        rw [List.map_cons, List.flatten_cons, ih]
        rfl

theorem flatten_map_perm {α β : Type} (g1 g2 : α → List β) :
    ∀ (l : List α), (∀ x ∈ l, (g1 x).Perm (g2 x)) →
      ((l.map g1).flatten).Perm ((l.map g2).flatten) := by
  intro l
  induction l with
  | nil => intro _; exact List.Perm.refl _
  | cons x xs ih =>
    intro h
    rw [List.map_cons, List.map_cons, List.flatten_cons, List.flatten_cons]
    exact (h x (List.mem_cons_self x xs)).append
      (ih (fun y hy => h y (List.mem_cons_of_mem x hy)))

theorem perm_partition {α κ : Type} [DecidableEq κ] (kf : α → Option κ) :
    ∀ (ks : List κ) (l : List α), ks.Nodup →
      (∀ x ∈ l, ∃ k ∈ ks, kf x = some k) →
      l.Perm ((ks.map (fun k =>
        l.filter (fun x => kf x = some k))).flatten) := by
  intro ks
  induction ks with
  | nil =>
    intro l _ hall
    cases l with
    | nil => exact List.Perm.refl _
    | cons x xs =>
      obtain ⟨k, hk, _⟩ := hall x (List.mem_cons_self x xs)
      cases hk
  | cons k ks ih =>
    intro l hnd hall
    rw [List.nodup_cons] at hnd
    have hsplit := List.filter_append_perm
      (fun x => decide (kf x = some k)) l
    have hrest := ih (l.filter (fun x => !decide (kf x = some k)))
      hnd.2 ?hall2
    case hall2 =>
      intro x hx
      rw [List.mem_filter] at hx
      obtain ⟨k2, hk2, hkf⟩ := hall x hx.1
      rw [List.mem_cons] at hk2
      rcases hk2 with rfl | hk2
      · exact absurd hkf (by simpa using hx.2)
      · exact ⟨k2, hk2, hkf⟩
    have hfix : ∀ k2 ∈ ks,
        (l.filter (fun x => !decide (kf x = some k))).filter
            (fun x => kf x = some k2)
          = l.filter (fun x => kf x = some k2) := by
      intro k2 hk2
      rw [List.filter_filter]
      apply List.filter_congr
      intro x _
      by_cases hx : kf x = some k2
      · have hne2 : ¬ k2 = k := fun h3 => hnd.1 (h3 ▸ hk2)
        simp [hx, hne2]
      · simp [hx]
    rw [List.map_congr_left hfix] at hrest
    rw [List.map_cons, List.flatten_cons]
    refine List.Perm.trans ?_ (List.Perm.append (List.Perm.refl _) hrest)
    exact hsplit.symm

theorem mem_topEntries_grpKey (fs : List (Str × Str)) (e : Str × Str)
    (he : e ∈ topEntries fs) : grpKey e = none := by
  unfold topEntries at he
  rw [List.mem_filter] at he
  have h2 := he.2
  rw [Option.isNone_iff_eq_none] at h2
  exact h2

/-- Every input entry, as a multiset: the top-level entries followed by the
groups in order. -/
theorem files_partition_perm (files : List (Str × Str)) :
    files.Perm (topEntries files
      ++ ((grpKeys files).map (groupEntries files)).flatten) := by
  have hsplit := List.filter_append_perm
    (fun e => (grpKey e).isNone) files
  have hpart := perm_partition grpKey (grpKeys files)
    (files.filter (fun e => !(grpKey e).isNone))
    (firstOccList_nodup _) ?hall
  case hall =>
    intro x hx
    rw [List.mem_filter] at hx
    rcases hk : grpKey x with _ | p
    · rw [hk] at hx
      simp at hx
    · refine ⟨p, ?_, rfl⟩
      unfold grpKeys
      rw [firstOccList_mem, List.mem_filterMap]
      exact ⟨x, hx.1, hk⟩
  have hfix : ∀ p ∈ grpKeys files,
      (files.filter (fun e => !(grpKey e).isNone)).filter
          (fun x => grpKey x = some p)
        = groupEntries files p := by
    intro p _
    unfold groupEntries
    rw [List.filter_filter]
    apply List.filter_congr
    intro x _
    by_cases hx : grpKey x = some p
    · simp [hx]
    · simp [hx]
  rw [List.map_congr_left hfix] at hpart
  exact hsplit.symm.trans (List.Perm.append (List.Perm.refl _) hpart)

theorem flatten_map_singleton {α : Type} (l : List α) :
    (l.map (fun x => [x])).flatten = l := by
  induction l with
  | nil => rfl
  | cons x xs ih => simp [ih]

/-- Claim C5 (amended): navigation synthesis is a pure function of the
input collection, and when the keys it derives are collision-free — the
sanitized top-level titles and the sanitized group names are pairwise
distinct, and within each group the sanitized leaf titles are pairwise
distinct — the leaves of the produced tree are exactly the input entries,
each appearing exactly once (a permutation of the input collection mapped
to its sanitized leaf title and slash-normalized path).  Without these
hypotheses an entry can be dropped by a dict-key overwrite, so the original
unconditional exactly-once claim fails (see the counterexample). -/
theorem claim_C5 (files : List (Str × Str))
    (h1 : (topKeys files ++ (grpKeys files).map sanitize_title).Nodup)
    (h2 : ∀ p ∈ grpKeys files,
      ((groupEntries files p).map
        (fun e => sanitize_title (navLeafTitle e.2))).Nodup) :
    (navLeaves (build_nav_structure files)).Perm
      (files.map navEntryKV) := by
  unfold build_nav_structure
  rw [navLeaves_dict_to_nav, navStructure_eq files h1 h2]
  have hmid : ((((topsModel files).map (fun e => (e.1, NavVal.leaf e.2))
      ++ (grpKeys files).map (fun p =>
          (sanitize_title p,
           NavVal.group ((groupEntries files p).map navEntryKV)))).map
        navValLeaves).flatten).Perm
      (topsModel files
        ++ ((grpKeys files).map (fun p =>
            (groupEntries files p).map navEntryKV)).flatten) := by
    rw [List.map_append, List.flatten_append]
    refine List.Perm.append ?_ ?_
    · rw [List.map_map,
        show ((topsModel files).map
            (navValLeaves ∘ fun e => (e.1, NavVal.leaf e.2)))
          = (topsModel files).map (fun x => [x]) from
          List.map_congr_left (fun e _ => rfl),
        flatten_map_singleton]
    · rw [List.map_map,
        show ((grpKeys files).map
            (navValLeaves ∘ fun p =>
              (sanitize_title p,
               NavVal.group ((groupEntries files p).map navEntryKV))))
          = (grpKeys files).map (fun p =>
              sortPairs ((groupEntries files p).map navEntryKV)) from
          List.map_congr_left (fun p _ => rfl)]
      exact flatten_map_perm _ _ _ (fun p _ => sortPairs_perm _)
  refine List.Perm.trans
    (List.Perm.flatten ((sortPairs_perm _).map navValLeaves)) ?_
  refine hmid.trans ?_
  refine List.Perm.symm ?_
  refine ((files_partition_perm files).map navEntryKV).trans ?_
  rw [List.map_append]
  refine List.Perm.append ?_ ?_
  · have htop : (topEntries files).map navEntryKV = topsModel files := by
      unfold topsModel
      apply List.map_congr_left
      intro e he
      unfold navEntryKV
      rw [navLeafTitle_of_none e (mem_topEntries_grpKey files e he)]
    rw [htop]
  · rw [List.map_flatten, List.map_map]
    exact List.Perm.refl _

/-- The collision-free collection of the C5 witness. -/
def filesC5 : List (Str × Str) :=
  [(("a.md").data, ("Client - Guide").data),
   (("b.md").data, ("Client - API").data),
   (("c.md").data, ("Readme").data)]

/-- C5 witness: on a collision-free collection the leaves produced are a
permutation of the input entries. -/
theorem claim_C5_witness :
    (navLeaves (build_nav_structure filesC5)).Perm
      (filesC5.map navEntryKV) :=
  claim_C5 filesC5 (by decide) (by decide)

end DocsToSite
